import Mathlib

/-
Verification of the legal-text segmentation and chunking pipeline
(`services/data_pipeline/dof_scraper.py`, `services/data_pipeline/legal_chunker.py`,
`apps/api/app/infrastructure/ingestion/pdf_text.py`).

Python strings are modelled as `List Char`; the specific regular expressions used
by the pipeline are embedded as direct matchers with Python `re` backtracking
semantics; the token encoder (tiktoken) is an abstract encode/decode pair.
-/

abbrev Str := List Char

/-- ASCII whitespace, the class used by Python `str.strip` and `re` `\s`
on the ASCII repertoire of the scraped statutes. -/
def isSpc (c : Char) : Bool :=
  c == ' ' || c == '\t' || c == '\n' || c == '\r' || c == '\x0b' || c == '\x0c'

/-- Python `str.strip()`. -/
def pyStrip (s : Str) : Str :=
  ((s.dropWhile isSpc).reverse.dropWhile isSpc).reverse

/-- Python `str.lower()` on the character repertoire of the statutes
(ASCII plus the accented Spanish letters the patterns mention). -/
def pyLower (c : Char) : Char :=
  if c.isUpper then Char.ofNat (c.toNat + 32)
  else if c == 'Á' then 'á' else if c == 'É' then 'é'
  else if c == 'Í' then 'í' else if c == 'Ó' then 'ó'
  else if c == 'Ú' then 'ú' else if c == 'Ñ' then 'ñ'
  else if c == 'Ü' then 'ü' else c

/-- Python `str.upper()` restricted to ASCII (enough for roman numerals). -/
def pyUpper (c : Char) : Char :=
  if c.isLower then Char.ofNat (c.toNat - 32) else c

/-- Python `re` `\w` on the statutes' character repertoire: ASCII alphanumerics,
underscore, the Spanish accented letters and the ordinal signs (all of which are
letters for Unicode `\w`). -/
def isWordChar (c : Char) : Bool :=
  c.isAlphanum || c == '_' ||
  c == 'á' || c == 'é' || c == 'í' || c == 'ó' || c == 'ú' || c == 'ñ' || c == 'ü' ||
  c == 'Á' || c == 'É' || c == 'Í' || c == 'Ó' || c == 'Ú' || c == 'Ñ' || c == 'Ü' ||
  c == 'º' || c == 'ª'

/-- Length of the longest prefix of `s` whose characters satisfy `p`. -/
def countLeading (p : Char → Bool) : Str → Nat
  | [] => 0
  | c :: rest => if p c then countLeading p rest + 1 else 0

/-- Match a list of character classes against the head of `s`
(a literal with per-character alternatives, e.g. a case-insensitive word). -/
def matchClasses : List (Char → Bool) → Str → Bool
  | [], _ => true
  | _ :: _, [] => false
  | p :: ps, c :: rest => p c && matchClasses ps rest

/-- Case-insensitive single character class. -/
def ciP (t : Char) : Char → Bool := fun c => pyLower c == t

/-- The class `[ií]` under IGNORECASE. -/
def iiP : Char → Bool := fun c => pyLower c == 'i' || pyLower c == 'í'

/-- The class `[oó]` under IGNORECASE. -/
def ooP : Char → Bool := fun c => pyLower c == 'o' || pyLower c == 'ó'

/-- The class `[eé]` under IGNORECASE. -/
def eeP : Char → Bool := fun c => pyLower c == 'e' || pyLower c == 'é'

/-- Case-insensitive literal word as a class list. -/
def ciWord (w : Str) : List (Char → Bool) := w.map ciP

/-- Decimal digit character. -/
def digitChar (d : Nat) : Char := Char.ofNat (48 + d)

/-- Helper for `natStr`; the first argument is recursion fuel (`n` itself suffices
since the value shrinks by a factor of ten each step). -/
def natStrGo : Nat → Nat → Str → Str
  | 0, n, acc => digitChar (n % 10) :: acc
  | f + 1, n, acc =>
    if n < 10 then digitChar n :: acc
    else natStrGo f (n / 10) (digitChar (n % 10) :: acc)

/-- Python `str(n)` for a non-negative integer. -/
def natStr (n : Nat) : Str := natStrGo n n []

/-- Python `str(i)` for an arbitrary integer. -/
def intStr (i : Int) : Str :=
  if i < 0 then '-' :: natStr (-i).toNat else natStr i.toNat

/-- Numeric value of a digit character. -/
def digitVal (c : Char) : Nat := c.toNat - 48

/-- Value of a decimal digit string. -/
def digitsVal (s : Str) : Nat := s.foldl (fun a c => 10 * a + digitVal c) 0

/-- Python `"\n".join`-style joining with a single space (`" ".join`). -/
def joinSpace : List Str → Str
  | [] => []
  | [l] => l
  | l :: rest => l ++ ' ' :: joinSpace rest

/-- Python `str.splitlines()` (restricted to the `\n`, `\r\n`, `\r`, `\v`, `\f`
line boundaries; the wider Unicode boundaries do not occur in the pipeline's data). -/
def splitLinesGo (cur : Str) : Str → List Str
  | [] => [cur.reverse]
  | '\r' :: '\n' :: rest =>
    cur.reverse :: (if rest.isEmpty then [] else splitLinesGo [] rest)
  | c :: rest =>
    if c == '\n' || c == '\r' || c == '\x0b' || c == '\x0c' then
      cur.reverse :: (if rest.isEmpty then [] else splitLinesGo [] rest)
    else splitLinesGo (c :: cur) rest

def splitLines (s : Str) : List Str :=
  if s.isEmpty then [] else splitLinesGo [] s

/-- Python slice `t[s:e]`. -/
def sliceStr (t : Str) (s e : Nat) : Str := (t.drop s).take (e - s)

/-- First index of `'\n'`, Python `str.find("\n")`. -/
def idxOfNewline : Str → Option Nat
  | [] => none
  | c :: rest =>
    if c == '\n' then some 0
    else (idxOfNewline rest).map (· + 1)

-- --------------------------------------------------------------------------
-- legal_chunker.py : data model
-- --------------------------------------------------------------------------

inductive UnitKind where
  | lead_paragraph
  | fraction_paragraph
deriving DecidableEq

structure ArticleUnit where
  kind : UnitKind
  article_number : Str
  fraction_label : Option Str
  paragraph_index : Int
  text : Str
deriving DecidableEq

inductive SectionTag where
  | article
  | transitory
deriving DecidableEq

def SectionTag.str : SectionTag → Str
  | .article => "article".toList
  | .transitory => "transitory".toList

structure LegalChunk where
  chunk_id : Str
  doc_id : Str
  article_number : Str
  fraction_label : Option Str
  paragraph_index : Int
  chunk_index : Nat
  sectionTag : SectionTag
  content : Str
  metadata : List (Str × Str)
deriving DecidableEq

/-- The abstract token encoder/decoder (tiktoken `Encoding`): only
`encode_ordinary` and `decode` are used by the chunker. -/
structure Encoding where
  encode : Str → List Nat
  decode : List Nat → Str

-- --------------------------------------------------------------------------
-- legal_chunker.py : _safe_id_component
-- --------------------------------------------------------------------------

/-- `_ID_SAFE_RE.sub("-", value)`: replace each maximal run of characters
outside `[0-9A-Za-z]` with a single `-`.  The boolean flag records whether the
previous character was part of a non-alphanumeric run. -/
def collapseGo : Bool → Str → Str
  | _, [] => []
  | inRun, c :: rest =>
    if c.isAlphanum then c :: collapseGo false rest
    else if inRun then collapseGo true rest
    else '-' :: collapseGo true rest

def collapseNonAlnum (s : Str) : Str := collapseGo false s

/-- Python `str.strip("-")`. -/
def stripDashes (s : Str) : Str :=
  ((s.dropWhile (· == '-')).reverse.dropWhile (· == '-')).reverse

def _safe_id_component (value : Str) : Str :=
  let slug := stripDashes (collapseNonAlnum value)
  if slug.isEmpty then "na".toList else slug

-- --------------------------------------------------------------------------
-- legal_chunker.py : normalize_article_lines, FRACTION_START_RE,
-- split_article_into_units
-- --------------------------------------------------------------------------

def normalizeGo : List Str → Bool → List Str
  | [], _ => []
  | ln :: rest, prevBlank =>
    if (pyStrip ln).isEmpty then
      if prevBlank then normalizeGo rest true
      else [] :: normalizeGo rest true
    else pyStrip ln :: normalizeGo rest false

def normalize_article_lines (text : Str) : List Str :=
  normalizeGo (splitLines text) false

/-- Roman-numeral characters `[IVXLCDM]` under IGNORECASE. -/
def isRomanChar (c : Char) : Bool :=
  let u := pyUpper c
  u == 'I' || u == 'V' || u == 'X' || u == 'L' || u == 'C' || u == 'D' || u == 'M'

/-- Punctuation class `[\.\)\-]` of FRACTION_START_RE. -/
def isFracPunct (c : Char) : Bool := c == '.' || c == ')' || c == '-'

/-- Tail of FRACTION_START_RE after the roman numeral: `\s*[\.\)\-]*\s+(?=\S)`,
with the regex engine's backtracking order (`\s*` longest first, then the
punctuation run longest first, then `\s+` which together with the lookahead must
consume a whole non-empty space run followed by a non-space). Returns the number
of characters consumed. -/
def fracTailPunct (s : Str) (b : Nat) : Option Nat :=
  -- try `[\.\)\-]*` of length b (descending), then `\s+(?=\S)`
  let m := countLeading isSpc (s.drop b)
  if m ≥ 1 && !(s.drop (b + m)).isEmpty then some (b + m)
  else match b with
    | 0 => none
    | b' + 1 => fracTailPunct s b'

def fracTailFrom (s : Str) (a : Nat) : Option Nat :=
  -- `\s*` took a characters; now `[\.\)\-]*\s+(?=\S)`
  match fracTailPunct (s.drop a) (countLeading isFracPunct (s.drop a)) with
  | some k => some (a + k)
  | none =>
    match a with
    | 0 => none
    | a' + 1 => fracTailFrom s a'

def fracTail (s : Str) : Option Nat :=
  fracTailFrom s (countLeading isSpc s)

/-- The roman-numeral group of FRACTION_START_RE with its backtracking:
`([IVXLCDM]+)` longest first, each length followed by the tail matcher.
Returns (roman characters as matched, characters consumed in total). -/
def fracRomanGo (s : Str) : Nat → Option (Str × Nat)
  | 0 => none
  | r + 1 =>
    match fracTail (s.drop (r + 1)) with
    | some k => some (s.take (r + 1), r + 1 + k)
    | none => fracRomanGo s r

def fracRoman (s : Str) : Option (Str × Nat) :=
  fracRomanGo s (countLeading isRomanChar s)

/-- The character class of FRACTION_START_RE's first keyword branch.  The
source literally contains the mojibake class `[oÃ³]` (o, U+00C3, U+00B3);
under IGNORECASE it accepts o, O, Ã, ã and ³ — and notably not ó. -/
def fracOClass : Char → Bool := fun c =>
  c == 'o' || c == 'O' || c == 'Ã' || c == 'ã' || c == '³'

/-- `FRACTION_START_RE.match(ln)`: `^\s*(?:fracci[oÃ³]n\s+|fraccion\s+)?([IVXLCDM]+)\s*[\.\)\-]*\s+(?=\S)`
(IGNORECASE).  Returns the captured roman numeral and `match.end()`.  The 6th
keyword character is a literal `i` in both alternatives; the second alternative
(`fraccion`, plain `o`) matches a subset of the first with the same lengths, so
the alternation collapses to one class list with `fracOClass` at position 7. -/
def fracMatch (ln : Str) : Option (Str × Nat) :=
  let a := countLeading isSpc ln
  let s1 := ln.drop a
  let kw : Option Nat :=
    -- `(?:fracci[oÃ³]n\s+|fraccion\s+)?` — both branches require `\s+` after the word
    if matchClasses [ciP 'f', ciP 'r', ciP 'a', ciP 'c', ciP 'c', ciP 'i', fracOClass, ciP 'n'] s1 then
      let b := countLeading isSpc (s1.drop 8)
      if b ≥ 1 then some (8 + b) else none
    else none
  let tryAt (off : Nat) : Option (Str × Nat) :=
    (fracRoman (s1.drop off)).map (fun (rm, k) => (rm, a + off + k))
  match kw with
  | some off =>
    match tryAt off with
    | some res => some res
    | none => tryAt 0
  | none => tryAt 0

def flushPara (num : Str) (curFrac : Option Str) (buf : List Str) (pidx : Int) :
    Option ArticleUnit × Int :=
  if buf.isEmpty then (none, pidx)
  else
    let j := pidx + 1
    let t := pyStrip (joinSpace buf)
    if t.isEmpty then (none, j)
    else
      let k : UnitKind :=
        match curFrac with
        | none => .lead_paragraph
        | some _ => .fraction_paragraph
      (some ⟨k, num, curFrac, j, t⟩, j)

def unitsLoop (num : Str) : List Str → Option Str → List Str → Int → List ArticleUnit
  | [], curFrac, buf, pidx => (flushPara num curFrac buf pidx).1.toList
  | ln :: rest, curFrac, buf, pidx =>
    if ln.isEmpty then
      let (u, j) := flushPara num curFrac buf pidx
      u.toList ++ unitsLoop num rest curFrac [] j
    else
      match fracMatch ln with
      | some (rm, e) =>
        let (u, _) := flushPara num curFrac buf pidx
        let newFrac := some (rm.map pyUpper)
        let rem := pyStrip (ln.drop e)
        let buf' := if rem.isEmpty then [] else [rem]
        u.toList ++ unitsLoop num rest newFrac buf' 0
      | none => unitsLoop num rest curFrac (buf ++ [ln]) pidx

structure LegalArt where
  number : Str
  heading : Option Str
  text : Str
deriving DecidableEq

def split_article_into_units (art : LegalArt) : List ArticleUnit :=
  unitsLoop art.number (normalize_article_lines art.text) none [] 0

-- --------------------------------------------------------------------------
-- legal_chunker.py : chunk_text_by_tokens
-- --------------------------------------------------------------------------

def chunkTokLoop (enc : Encoding) (tokens : List Nat) (maxT step : Nat) :
    Nat → Nat → List Str
  | _, 0 => []
  | start, fuel + 1 =>
    if start < tokens.length then
      let e := min (start + maxT) tokens.length
      let slice := (tokens.drop start).take (e - start)
      let decoded := enc.decode slice
      let here := if decoded.isEmpty then [] else [pyStrip decoded]
      if tokens.length ≤ e then here
      else here ++ chunkTokLoop enc tokens maxT step (start + step) fuel
    else []

def chunk_text_by_tokens (enc : Encoding) (text : Str)
    (max_tokens overlap_tokens : Int) : Except Str (List Str) :=
  let cleaned := pyStrip text
  if cleaned.isEmpty then .ok []
  else if max_tokens ≤ 0 then .error "max_tokens must be positive".toList
  else if overlap_tokens < 0 ∨ overlap_tokens ≥ max_tokens then
    .error "overlap_tokens must be between 0 and max_tokens".toList
  else
    let tokens := enc.encode cleaned
    if tokens.length ≤ max_tokens.toNat then .ok [cleaned]
    else
      let step := (max_tokens - overlap_tokens).toNat
      .ok (chunkTokLoop enc tokens max_tokens.toNat step 0 (tokens.length + 1))

-- --------------------------------------------------------------------------
-- legal_chunker.py : build_chunks_from_units
-- --------------------------------------------------------------------------

structure ChunkDoc where
  id : Str
  title : Str
  dtype : Str
  source : Str
  jurisdiction : Str
  source_url : Str
  publication_date : Option Str
  status : Option Str
  metadata : List (Str × Str)

/-- Python dict as an insertion-ordered association list. -/
def alookup : List (Str × Str) → Str → Option Str
  | [], _ => none
  | (k, v) :: rest, key => if k = key then some v else alookup rest key

/-- `dict.update`: existing keys keep their position and get the new value,
new keys are appended in order. -/
def dictInsert (m : List (Str × Str)) (kv : Str × Str) : List (Str × Str) :=
  if (alookup m kv.1).isSome then
    m.map (fun p => if p.1 = kv.1 then (p.1, kv.2) else p)
  else m ++ [kv]

def dictUpdate (m : List (Str × Str)) (upd : List (Str × Str)) : List (Str × Str) :=
  upd.foldl dictInsert m

def docMetaOf (doc : ChunkDoc) : List (Str × Str) :=
  let base : List (Str × Str) :=
    [("title".toList, doc.title), ("type".toList, doc.dtype),
     ("source".toList, doc.source), ("jurisdiction".toList, doc.jurisdiction),
     ("source_url".toList, doc.source_url),
     ("publication_date".toList, doc.publication_date.getD []),
     ("status".toList, doc.status.getD [])]
  if doc.metadata.isEmpty then base else dictUpdate base doc.metadata

def fracPart (fl : Option Str) : Str :=
  match fl with
  | some f => if f.isEmpty then "fraclead".toList
              else "frac".toList ++ _safe_id_component f
  | none => "fraclead".toList

def mkBaseId (docId : Str) (sec : SectionTag) (u : ArticleUnit) (idx : Nat) : Str :=
  docId ++ ':' :: (sec.str ++ ':' :: ("art".toList ++ _safe_id_component u.article_number
    ++ ':' :: (fracPart u.fraction_label
    ++ ':' :: ('p' :: intStr u.paragraph_index
    ++ ':' :: 'c' :: natStr idx))))

def mkChunkId (base : Str) (n : Nat) : Str :=
  if n = 0 then base else base ++ ':' :: 'v' :: natStr n

abbrev SeenMap := List (Str × Nat)

def lookupSeen : SeenMap → Str → Nat
  | [], _ => 0
  | (k, v) :: rest, key => if k = key then v else lookupSeen rest key

def bumpSeen : SeenMap → Str → SeenMap
  | [], key => [(key, 1)]
  | (k, v) :: rest, key =>
    if k = key then (k, v + 1) :: rest else (k, v) :: bumpSeen rest key

def emitSegs (doc : ChunkDoc) (meta : List (Str × Str)) (sec : SectionTag)
    (u : ArticleUnit) : List Str → Nat → SeenMap → List LegalChunk × SeenMap
  | [], _, seen => ([], seen)
  | content :: rest, idx, seen =>
    let base := mkBaseId doc.id sec u idx
    let n := lookupSeen seen base
    let seen' := bumpSeen seen base
    let c : LegalChunk :=
      ⟨mkChunkId base n, doc.id, u.article_number, u.fraction_label,
       u.paragraph_index, idx, sec, content, meta⟩
    let (cs, seen'') := emitSegs doc meta sec u rest (idx + 1) seen'
    (c :: cs, seen'')

def buildGo (doc : ChunkDoc) (enc : Encoding) (maxT ovT : Int) (sec : SectionTag)
    (meta : List (Str × Str)) :
    List ArticleUnit → SeenMap → Except Str (List LegalChunk × SeenMap)
  | [], seen => .ok ([], seen)
  | u :: rest, seen =>
    match chunk_text_by_tokens enc u.text maxT ovT with
    | .error e => .error e
    | .ok segs =>
      if segs.isEmpty then buildGo doc enc maxT ovT sec meta rest seen
      else
        let (cs, seen') := emitSegs doc meta sec u segs 0 seen
        match buildGo doc enc maxT ovT sec meta rest seen' with
        | .error e => .error e
        | .ok (cs', seen'') => .ok (cs ++ cs', seen'')

def build_chunks_from_units (doc : ChunkDoc) (units : List ArticleUnit)
    (enc : Encoding) (maxT ovT : Int) (sec : SectionTag) :
    Except Str (List LegalChunk) :=
  (buildGo doc enc maxT ovT sec (docMetaOf doc) units []).map (·.1)

-- --------------------------------------------------------------------------
-- dof_scraper.py : data model and regex machinery
-- --------------------------------------------------------------------------

structure LegalTransient where
  label : Str
  text : Str
deriving DecidableEq

/-- `\b` to the right of a word character: the next character must be absent
or not a word character. -/
def noWordHead (s : Str) : Bool :=
  match s.head? with
  | none => true
  | some c => !isWordChar c

/-- The case-insensitive literal `art[ií]culo`. -/
def artPreds : List (Char → Bool) :=
  [ciP 'a', ciP 'r', ciP 't', iiP, ciP 'c', ciP 'u', ciP 'l', ciP 'o']

/-- Whether position `pos` of `t` is a MULTILINE `^` position. -/
def lineStartAt (t : Str) (pos : Nat) : Bool :=
  pos == 0 || (t.drop (pos - 1)).head? == some '\n'

/-- `re.search` driver: scan positions left to right; at each MULTILINE `^`
position try the matcher (which returns characters consumed plus extra data). -/
def searchLoop {α : Type} (m : Str → Option (Nat × α)) :
    Str → Nat → Bool → Option (Nat × Nat × α)
  | [], pos, atLS =>
    match (if atLS then m [] else none) with
    | some (c, a) => some (pos, pos + c, a)
    | none => none
  | ch :: rest, pos, atLS =>
    match (if atLS then m (ch :: rest) else none) with
    | some (c, a) => some (pos, pos + c, a)
    | none => searchLoop m rest (pos + 1) (ch == '\n')

def searchFromPos {α : Type} (m : Str → Option (Nat × α)) (t : Str) (start : Nat) :
    Option (Nat × Nat × α) :=
  searchLoop m (t.drop start) start (lineStartAt t start)

def searchPlain (m : Str → Option Nat) (t : Str) (start : Nat) : Option (Nat × Nat) :=
  (searchFromPos (fun s => (m s).map (fun c => (c, ()))) t start).map
    (fun r => (r.1, r.2.1))

/-- The per-number sequential pattern `(?mi)^\s*art[ií]culo\s+{i}(?:o|º)?\b`,
matched at a `^` position; returns characters consumed. -/
def matchSeqArt (n : Nat) (s : Str) : Option Nat :=
  let a := countLeading isSpc s
  let s1 := s.drop a
  if matchClasses artPreds s1 then
    let s2 := s1.drop 8
    let b := countLeading isSpc s2
    if b = 0 then none
    else
      let s3 := s2.drop b
      let ds := natStr n
      if ds.isPrefixOf s3 then
        let s4 := s3.drop ds.length
        match s4.head? with
        | none => some (a + 8 + b + ds.length)
        | some c =>
          if c == 'o' || c == 'O' || c == 'º' then
            if noWordHead (s4.drop 1) then some (a + 8 + b + ds.length + 1) else none
          else if isWordChar c then none
          else some (a + 8 + b + ds.length)
      else none
  else none

/-- `find_article_positions_sequential`'s while-loop; the fuel is the
`max_articles` bound (the loop runs `i = 1 .. max_articles`). -/
def seqLoop (t : Str) : Nat → Nat → Nat → List (Nat × Nat)
  | _, _, 0 => []
  | startPos, i, fuel + 1 =>
    match searchFromPos (fun s => (matchSeqArt i s).map (fun c => (c, ()))) t startPos with
    | none => []
    | some (s, e, _) => (i, s) :: seqLoop t e (i + 1) fuel

def find_article_positions_sequential (t : Str) : List (Nat × Nat) :=
  seqLoop t 0 1 10000

/-- The ordinal-word alternation of `ORDINAL_WORDS_PATTERN`, in pattern order. -/
def ordinalBranches : List (List (Char → Bool)) :=
  [ciWord "primero".toList, ciWord "primera".toList,
   ciWord "segundo".toList, ciWord "segunda".toList,
   ciWord "tercero".toList, ciWord "tercera".toList,
   ciWord "cuarto".toList, ciWord "cuarta".toList,
   ciWord "quinto".toList, ciWord "quinta".toList,
   ciWord "sexto".toList, ciWord "sexta".toList,
   [ciP 's', eeP, ciP 'p', ciP 't', ciP 'i', ciP 'm', ciP 'o'],
   [ciP 's', eeP, ciP 'p', ciP 't', ciP 'i', ciP 'm', ciP 'a'],
   ciWord "octavo".toList, ciWord "octava".toList,
   ciWord "noveno".toList, ciWord "novena".toList,
   [ciP 'd', eeP, ciP 'c', ciP 'i', ciP 'm', ciP 'o'],
   [ciP 'd', eeP, ciP 'c', ciP 'i', ciP 'm', ciP 'a']]

/-- `ORDINAL_WORDS_MAP`. -/
def ordinalWordsMap : List (Str × Nat) :=
  [("primero".toList, 1), ("primera".toList, 1),
   ("segundo".toList, 2), ("segunda".toList, 2),
   ("tercero".toList, 3), ("tercera".toList, 3),
   ("cuarto".toList, 4), ("cuarta".toList, 4),
   ("quinto".toList, 5), ("quinta".toList, 5),
   ("sexto".toList, 6), ("sexta".toList, 6),
   ("septimo".toList, 7), ("séptimo".toList, 7),
   ("septima".toList, 7), ("séptima".toList, 7),
   ("octavo".toList, 8), ("octava".toList, 8),
   ("noveno".toList, 9), ("novena".toList, 9),
   ("decimo".toList, 10), ("décimo".toList, 10),
   ("decima".toList, 10), ("décima".toList, 10)]

def lookupOrd : List (Str × Nat) → Str → Option Nat
  | [], _ => none
  | (k, v) :: rest, key => if k = key then some v else lookupOrd rest key

/-- First ordinal-word branch matching at the head of `s`, with `\b` after it
(used by ARTICLE_HEADER_PATTERN). -/
def findOrdBranch : List (List (Char → Bool)) → Str → Option (Nat × Str)
  | [], _ => none
  | br :: rest, s =>
    if matchClasses br s && noWordHead (s.drop br.length) then
      some (br.length, s.take br.length)
    else findOrdBranch rest s

/-- ARTICLE_HEADER_PATTERN's group `((\d+)(?:o|º)?|<ordinals>)` followed by `\b`;
returns (characters consumed, the group-1 text). -/
def matchHdrGroup (s : Str) : Option (Nat × Str) :=
  let d := countLeading Char.isDigit s
  if d ≥ 1 then
    let s1 := s.drop d
    match s1.head? with
    | some c =>
      if c == 'o' || c == 'O' || c == 'º' then
        if noWordHead (s1.drop 1) then some (d + 1, s.take (d + 1)) else none
      else if isWordChar c then none
      else some (d, s.take d)
    | none => some (d, s.take d)
  else findOrdBranch ordinalBranches s

def hdrPunct (c : Char) : Bool := c == '.' || c == ':' || c == ',' || c == '-'

/-- `ARTICLE_HEADER_PATTERN` at a `^` position:
`^\s*art[ií]culo(?:\s*[\.:,-])?\s*((\d+)(?:o|º)?|<ordinals>)\b`; on failure
after the optional punctuation group the engine retries without it. -/
def matchRelaxed (s : Str) : Option (Nat × Str) :=
  let a := countLeading isSpc s
  let s1 := s.drop a
  if matchClasses artPreds s1 then
    let s2 := s1.drop 8
    let tryFrom (off : Nat) : Option (Nat × Str) :=
      let w := countLeading isSpc (s2.drop off)
      (matchHdrGroup (s2.drop (off + w))).map
        (fun r => (a + 8 + off + w + r.1, r.2))
    let optOff : Option Nat :=
      let w := countLeading isSpc s2
      match (s2.drop w).head? with
      | some c => if hdrPunct c then some (w + 1) else none
      | none => none
    match optOff with
    | some off =>
      match tryFrom off with
      | some res => some res
      | none => tryFrom 0
    | none => tryFrom 0
  else none

/-- `finditer` over ARTICLE_HEADER_PATTERN, collecting (start, group-1 text). -/
def relaxIterGo (t : Str) : Nat → Nat → List (Nat × Str)
  | _, 0 => []
  | pos, fuel + 1 =>
    match searchFromPos matchRelaxed t pos with
    | none => []
    | some (s, e, tok) => (s, tok) :: relaxIterGo t e fuel

def relaxIter (t : Str) : List (Nat × Str) := relaxIterGo t 0 (t.length + 1)

/-- Number extraction from the captured token (`int` of its leading digits,
else the ordinal-word map on the lowercased token). -/
def tokenNum (tok : Str) : Option Nat :=
  let d := countLeading Char.isDigit tok
  if d ≥ 1 then some (digitsVal (tok.take d))
  else lookupOrd ordinalWordsMap (tok.map pyLower)

/-- Stable insertion sort by the second component (`positions.sort(key=offset)`). -/
def insertBySnd (p : Nat × Nat) : List (Nat × Nat) → List (Nat × Nat)
  | [] => [p]
  | q :: rest => if q.2 < p.2 then q :: insertBySnd p rest else p :: q :: rest

def sortBySnd : List (Nat × Nat) → List (Nat × Nat)
  | [] => []
  | p :: rest => insertBySnd p (sortBySnd rest)

def find_article_positions_relaxed (t : Str) : List (Nat × Nat) :=
  sortBySnd ((relaxIter t).filterMap (fun st =>
    match tokenNum st.2 with
    | none => none
    | some n => if n = 0 then none else if n > 10000 then none else some (n, st.1)))

-- Transitorios headings -----------------------------------------------------

def isTransPunct (c : Char) : Bool := c == ':' || c == '-' || c == '.'

/-- MULTILINE `$`: end of string or just before a newline. -/
def eolHead (s : Str) : Bool :=
  match s.head? with
  | none => true
  | some c => c == '\n'

/-- `\s*$` with the space count descending from the given run length. -/
def peC (s : Str) : Nat → Option Nat
  | 0 => if eolHead s then some 0 else none
  | c + 1 => if eolHead (s.drop (c + 1)) then some (c + 1) else peC s c

def peCFull (s : Str) : Option Nat := peC s (countLeading isSpc s)

/-- `[:\-.]?\s*$`, trying the greedy branch (with the punctuation) first. -/
def peB (s : Str) : Option Nat :=
  match s.head? with
  | some c =>
    if isTransPunct c then
      match peCFull (s.drop 1) with
      | some k => some (1 + k)
      | none => peCFull s
    else peCFull s
  | none => peCFull s

/-- `\s*[:\-.]?\s*$` with the leading space count descending. -/
def peA (s : Str) : Nat → Option Nat
  | 0 => peB s
  | a + 1 =>
    match peB (s.drop (a + 1)) with
    | some k => some (a + 1 + k)
    | none => peA s a

def tailPE (s : Str) : Option Nat := peA s (countLeading isSpc s)

def transitPreds : List (Char → Bool) := ciWord "transitorios".toList

/-- `TRANSITORIOS_ROOT_PATTERN`: `^\s*art[ií]culos\s+transitorios\s*[:\-.]?\s*$`. -/
def matchTransRoot (s : Str) : Option Nat :=
  let a := countLeading isSpc s
  let s1 := s.drop a
  if matchClasses (artPreds ++ [ciP 's']) s1 then
    let b := countLeading isSpc (s1.drop 9)
    if b = 0 then none
    else
      let s2 := s1.drop (9 + b)
      if matchClasses transitPreds s2 then
        (tailPE (s2.drop 12)).map (fun k => a + 9 + b + 12 + k)
      else none
  else none

/-- `TRANSITORIOS_ALT_PATTERN`: `^\s*transitorios\s*[:\-.]?\s*$`. -/
def matchTransAlt (s : Str) : Option Nat :=
  let a := countLeading isSpc s
  let s1 := s.drop a
  if matchClasses transitPreds s1 then
    (tailPE (s1.drop 12)).map (fun k => a + 12 + k)
  else none

def find_transitorios_heading (t : Str) (searchFrom : Nat) : Option Nat :=
  match searchPlain matchTransRoot t searchFrom with
  | some r => some r.1
  | none => (searchPlain matchTransAlt t searchFrom).map (·.1)

-- Inline header pattern ------------------------------------------------------

/-- `ARTICLE_INLINE_PATTERN.match(chunk)`:
`(?is)^\s*(art[ií]culo\s+\d+(?:o|º)?[^\w]*)\s*(.*)$`.  Returns the index where
group 2 (the body) starts; the DOTALL `(.*)$` then takes everything after it. -/
def matchInline (chunk : Str) : Option Nat :=
  let a := countLeading isSpc chunk
  let s1 := chunk.drop a
  if matchClasses artPreds s1 then
    let s2 := s1.drop 8
    let b := countLeading isSpc s2
    if b = 0 then none
    else
      let s3 := s2.drop b
      let d := countLeading Char.isDigit s3
      if d = 0 then none
      else
        let s4 := s3.drop d
        let o : Nat :=
          match s4.head? with
          | some c => if c == 'o' || c == 'O' || c == 'º' then 1 else 0
          | none => 0
        let w := countLeading (fun c => !isWordChar c) (s4.drop o)
        some (a + 8 + b + d + o + w)
  else none

-- split_articles_and_tail ----------------------------------------------------

/-- The body-or-chunk rule of the slicing loop: keep only group 2 when the
inline pattern matches and its stripped body is non-empty (`body_text or chunk`). -/
def articleTextOf (chunk : Str) : Str :=
  match matchInline chunk with
  | some bs =>
    let body := pyStrip (chunk.drop bs)
    if body.isEmpty then chunk else body
  | none => chunk

def spansOf (len : Nat) : List (Nat × Nat) → List (Nat × Nat × Nat)
  | [] => []
  | (n, s) :: rest =>
    (n, s, (match rest with | (_, s2) :: _ => s2 | [] => len)) :: spansOf len rest

def mkArticle (trans : Option Nat) (t : Str) : Nat × Nat × Nat → LegalArt
  | (num, s, e) =>
    let e' := match trans with
      | some r => if s < r ∧ r < e then r else e
      | none => e
    ⟨natStr num, none, articleTextOf (pyStrip (sliceStr t s e'))⟩

/-- The sliced, stripped chunk the article loop computes for one span: the loop
local `chunk = text[start:end].strip()`, with `end` truncated at the
Transitorios heading when it falls strictly inside the span. -/
def chunkOfSpan (trans : Option Nat) (t : Str) : Nat × Nat × Nat → Str
  | (_, s, e) =>
    let e' := match trans with
      | some r => if s < r ∧ r < e then r else e
      | none => e
    pyStrip (sliceStr t s e')

def ocrPendingNoArticles : Str := "ocr_pending_no_articles".toList

def split_articles_and_tail (t : Str) : List LegalArt × Str × Str × Option Str :=
  let pos0 := find_article_positions_sequential t
  let positions := if pos0.isEmpty then find_article_positions_relaxed t else pos0
  if positions.isEmpty then ([], pyStrip t, [], some ocrPendingNoArticles)
  else
    let firstStart := ((positions.head?).map (·.2)).getD 0
    let lastStart := ((positions.getLast?).map (·.2)).getD 0
    let spans := spansOf t.length positions
    let transStart := find_transitorios_heading t (lastStart - 100)
    let articles := spans.map (mkArticle transStart t)
    let tail := match transStart with
      | some r => pyStrip (t.drop r)
      | none => pyStrip (t.drop t.length)
    (articles, pyStrip (t.take firstStart), tail, none)

/-- The list of chunks the article loop of `split_articles_and_tail` slices,
in order: one per detected article span, computed from the same positions and
Transitorios truncation point as the articles themselves. -/
def articleChunks (t : Str) : List Str :=
  let pos0 := find_article_positions_sequential t
  let positions := if pos0.isEmpty then find_article_positions_relaxed t else pos0
  if positions.isEmpty then []
  else
    let lastStart := ((positions.getLast?).map (·.2)).getD 0
    let spans := spansOf t.length positions
    let transStart := find_transitorios_heading t (lastStart - 100)
    spans.map (chunkOfSpan transStart t)

-- Transitory region ----------------------------------------------------------

/-- A non-`\b` ordinal branch match for TRANSITORY_ITEM_PATTERN. -/
def findItemBranch : List (List (Char → Bool)) → Str → Option Nat
  | [], _ => none
  | br :: rest, s => if matchClasses br s then some br.length else findItemBranch rest s

/-- `TRANSITORY_ITEM_PATTERN` at a `^` position:
`^\s*(?:art[ií]culo\s+|transitorio\s+)?(<ordinals>|\d+o?|\d+º)[^\n]*`. -/
def matchTransItem (s : Str) : Option Nat :=
  let a := countLeading isSpc s
  let s1 := s.drop a
  let ordAt (off : Nat) : Option Nat :=
    let s2 := s1.drop off
    match findItemBranch ordinalBranches s2 with
    | some k => some (off + k)
    | none =>
      let d := countLeading Char.isDigit s2
      if d = 0 then none
      else
        match (s2.drop d).head? with
        | some c => if c == 'o' || c == 'O' then some (off + d + 1) else some (off + d)
        | none => some (off + d)
  let kwTry (w : List (Char → Bool)) : Option Nat :=
    if matchClasses w s1 then
      let b := countLeading isSpc (s1.drop w.length)
      if b ≥ 1 then ordAt (w.length + b) else none
    else none
  let res : Option Nat :=
    match kwTry artPreds with
    | some k => some k
    | none =>
      match kwTry (ciWord "transitorio".toList) with
      | some k => some k
      | none => ordAt 0
  match res with
  | some k => some (a + k + countLeading (fun c => !(c == '\n')) (s1.drop k))
  | none => none

def itemIterGo (t : Str) : Nat → Nat → List (Nat × Nat)
  | _, 0 => []
  | pos, fuel + 1 =>
    match searchPlain matchTransItem t pos with
    | none => []
    | some (s, e) => (s, e) :: itemIterGo t e fuel

def itemIter (t : Str) : List (Nat × Nat) := itemIterGo t 0 (t.length + 1)

def headingSearch (t : Str) : Option (Nat × Nat) :=
  match searchPlain matchTransRoot t 0 with
  | some r => some r
  | none => searchPlain matchTransAlt t 0

def itemSpans (len : Nat) : List (Nat × Nat) → List (Nat × Nat)
  | [] => []
  | (s, _) :: rest =>
    (s, (match rest with | (s2, _) :: _ => s2 | [] => len)) :: itemSpans len rest

def mkTransient (after : Str) : Nat × Nat → LegalTransient
  | (s, e) =>
    let chunk := pyStrip (sliceStr after s e)
    match idxOfNewline chunk with
    | none => ⟨pyStrip chunk, []⟩
    | some p => ⟨pyStrip (chunk.take p), pyStrip (chunk.drop (p + 1))⟩

def split_transitory_region (t0 : Str) : List LegalTransient × Str :=
  let t := pyStrip t0
  if t.isEmpty then ([], [])
  else
    match headingSearch t with
    | none => ([], t)
    | some (hs, he) =>
      let headingText := pyStrip (sliceStr t hs he)
      let after := pyStrip (t.drop he)
      match itemIter after with
      | [] => ([], pyStrip (headingText ++ '\n' :: after))
      | m0 :: restMs =>
        let transPre := pyStrip (after.take m0.1)
        let items := (itemSpans after.length (m0 :: restMs)).map (mkTransient after)
        let fullPre := if transPre.isEmpty then headingText
                       else pyStrip (headingText ++ '\n' :: transPre)
        (items, fullPre)

def split_articles_and_transitory (t : Str) :
    List LegalArt × List LegalTransient × Str × Str × Option Str :=
  let r := split_articles_and_tail t
  let r2 := split_transitory_region r.2.2.1
  (r.1, r2.1, r.2.1, r2.2, r.2.2.2)

-- build_document -------------------------------------------------------------

structure SourceEntry where
  id : Str
  title : Str
  etype : Option Str
  source : Option Str
  jurisdiction : Option Str
  url : Str
  publication_date : Option Str
  status : Option Str

structure LegalDoc where
  id : Str
  title : Str
  dtype : Str
  source : Str
  jurisdiction : Str
  source_url : Str
  publication_date : Option Str
  status : Option Str
  plain_text : Option Str
  articles : List LegalArt
  transitory : List LegalTransient
  metadata : List (Str × Str)

def build_document (entry : SourceEntry) (plain_text : Str) : LegalDoc :=
  let r := split_articles_and_transitory plain_text
  let articles := r.1
  let transitory_items := r.2.1
  let preamble := r.2.2.1
  let trans_preamble := r.2.2.2.1
  let parse_issue :=
    if (pyStrip plain_text).isEmpty then some "ocr_pending_empty_pdf".toList
    else r.2.2.2.2
  let md0 : List (Str × Str) :=
    [("original_title".toList, entry.title),
     ("source".toList, entry.source.getD []),
     ("num_articles".toList, natStr articles.length),
     ("num_transitory".toList, natStr transitory_items.length)]
  let md1 := if preamble.isEmpty then md0 else md0 ++ [("preamble".toList, preamble)]
  let md2 := if trans_preamble.isEmpty then md1
             else md1 ++ [("transitory_preamble".toList, trans_preamble)]
  let md3 := match parse_issue with
    | some flag => md2 ++ [("parse_issue".toList, flag)]
    | none => md2
  ⟨entry.id, entry.title, entry.etype.getD "LEY".toList, entry.source.getD "DOF".toList,
   entry.jurisdiction.getD "FEDERAL".toList, entry.url, entry.publication_date,
   entry.status, some plain_text, articles, transitory_items, md3⟩

-- --------------------------------------------------------------------------
-- dof_scraper.py / pdf_text.py : _detect_column_boundary
-- (floats modelled as exact rationals)
-- --------------------------------------------------------------------------

structure PWord where
  x0 : ℚ
  x1 : ℚ
deriving DecidableEq

/-- Insert into a sorted duplicate-free list (`sorted({...})`). -/
def insertDistinct (x : ℚ) : List ℚ → List ℚ
  | [] => [x]
  | y :: rest =>
    if x = y then y :: rest
    else if y < x then y :: insertDistinct x rest
    else x :: y :: rest

def sortedDedup : List ℚ → List ℚ
  | [] => []
  | x :: rest => insertDistinct x (sortedDedup rest)

/-- Adjacent pairs (`pairwise(xs)` / `zip(xs, xs[1:])`). -/
def pairsList (xs : List ℚ) : List (ℚ × ℚ) := xs.zip xs.tail

/-- The largest-gap fold: strictly greater gaps replace the current best, so the
first maximal gap wins; the boundary is the midpoint of that gap. -/
def bestGapGo : List (ℚ × ℚ) → ℚ → Option ℚ → ℚ × Option ℚ
  | [], best, bnd => (best, bnd)
  | (l, r) :: rest, best, bnd =>
    if best < r - l then bestGapGo rest (r - l) (some (l + (r - l) / 2))
    else bestGapGo rest best bnd

/-- Python `max` on two numbers. -/
def ratMax (a b : ℚ) : ℚ := if a < b then b else a

/-- `sum(1 for w in words if w["x1"] <= boundary)`. -/
def countLeft (b : ℚ) : List PWord → Nat
  | [] => 0
  | w :: rest => (if w.x1 ≤ b then 1 else 0) + countLeft b rest

def _detect_column_boundary (words : List PWord) (page_width : ℚ) : Option ℚ :=
  if words.isEmpty then none
  else
    let xs := sortedDedup (words.map (·.x0))
    if xs.length < 2 then none
    else
      match bestGapGo (pairsList xs) 0 none with
      | (_, none) => none
      | (bestGap, some boundary) =>
        if bestGap < ratMax (page_width * (12 / 100)) 40 then none
        else
          let leftCount := countLeft boundary words
          let total := words.length
          let leftShare : ℚ := if total = 0 then 0 else (leftCount : ℚ) / (total : ℚ)
          if leftShare < 1 / 4 ∨ leftShare > 3 / 4 then none
          else if ¬(page_width * (1 / 5) < boundary ∧ boundary < page_width * (4 / 5)) then none
          else some boundary

-- --------------------------------------------------------------------------
-- Statement helpers and concrete inputs used by the theorems below
-- --------------------------------------------------------------------------

/-- Number of `':'` characters in a string. -/
def colonCount (s : Str) : Nat := s.count ':'

/-- The token window starting at `i * step` (token slice `[i*step : i*step + maxT]`). -/
def tokWindow (tokens : List Nat) (maxT step i : Nat) : List Nat :=
  (tokens.drop (i * step)).take maxT

/-- `ceil((L - overlap) / step)` in integer arithmetic. -/
def windowCount (L overlap step : Nat) : Nat := (L - overlap + step - 1) / step

/-- Relation between successive units of one article: either the fraction label
is unchanged and the paragraph index advances by exactly one, or the unit starts
at paragraph index 1 (a fraction marker was crossed). -/
def unitStep (a b : ArticleUnit) : Prop :=
  (b.fraction_label = a.fraction_label ∧ b.paragraph_index = a.paragraph_index + 1) ∨
  b.paragraph_index = 1

/-- C1 scenario: headers 1, 2 and 4 with 3 missing. -/
def seqGapText : Str :=
  "Artículo 1 Uno.\n\nArtículo 2 Dos.\n\nArtículo 4 Cuatro.".toList

/-- C2 scenario article. -/
def fractionArt : LegalArt :=
  ⟨"1".toList, none, "Lead text.\n\nI. First.\n\nMore on I.\n\nII. Second.".toList⟩

/-- C2 counterexample article: the same fraction label re-matched later. -/
def fractionArtRepeat : LegalArt :=
  ⟨"1".toList, none, "I. a\n\nx\n\nI. b".toList⟩

/-- A degenerate but well-typed encoding: one token per character, decoding to
`'a'`s; used to instantiate theorems about the abstract encoder. -/
def charEnc : Encoding :=
  ⟨fun s => s.map (fun _ => 0), fun ts => ts.map (fun _ => 'a')⟩

/-- An encoding whose decodes are whitespace-only (C10 counterexample). -/
def spaceEnc : Encoding :=
  ⟨fun s => s.map (fun _ => 0), fun ts => ts.map (fun _ => ' ')⟩

/-- C3 scenario text: 1000 tokens under `charEnc`. -/
def thousandText : Str := List.replicate 1000 'b'

def docW : ChunkDoc :=
  ⟨"d".toList, "T".toList, "LEY".toList, "DOF".toList, "FEDERAL".toList,
   "u".toList, none, none, []⟩

/-- Two units whose distinct article numbers slug to the same safe component. -/
def unitW1 : ArticleUnit := ⟨.lead_paragraph, "1.".toList, none, 1, "hola".toList⟩

def unitW2 : ArticleUnit := ⟨.lead_paragraph, "1?".toList, none, 1, "mundo".toList⟩

/-- C5 witness page: two well-separated columns on a 500-unit-wide page. -/
def colWords : List PWord := [⟨0, 50⟩, ⟨10, 60⟩, ⟨300, 350⟩, ⟨310, 360⟩]

/-- C6 scenario text. -/
def transScenario : Str :=
  ("Artículo 1 Disposición general.\n\nArtículo 2 Otra disposición.\n\n" ++
   "Artículos Transitorios\n\nPRIMERO.- Entra en vigor.").toList

/-- C8 witness: text with no article headers at all. -/
def noArtText : Str := "hola mundo".toList

def entryW : SourceEntry :=
  ⟨"doc1".toList, "Título".toList, none, none, none, "http".toList, none, none⟩

/-- C9 counterexample: an article whose inline header has an empty body. -/
def emptyBodyText : Str := "Artículo 1\n\nArtículo 2 Algo.".toList

-- --------------------------------------------------------------------------
-- Lemmas about the search machinery
-- --------------------------------------------------------------------------

set_option maxRecDepth 100000

theorem matchSeqArt_pos (n : Nat) (s : Str) (k : Nat)
    (h : matchSeqArt n s = some k) : 1 ≤ k := by
  simp only [matchSeqArt] at h
  repeat' split at h
  all_goals first
    | (rw [Option.some_inj] at h; omega)
    | simp at h

theorem searchLoop_bounds {α : Type} (m : Str → Option (Nat × α))
    (hm : ∀ s c a, m s = some (c, a) → 1 ≤ c) :
    ∀ (s : Str) (pos : Nat) (b : Bool) (p e : Nat) (x : α),
      searchLoop m s pos b = some (p, e, x) → pos ≤ p ∧ p < e := by
  intro s
  induction s with
  | nil =>
    intro pos b p e x h
    rw [searchLoop] at h
    split at h
    next c a heq =>
      have hc : 1 ≤ c := by
        split at heq
        · exact hm _ _ _ heq
        · exact absurd heq (by simp)
      simp at h
      omega
    next heq => exact absurd h (by simp)
  | cons ch rest ih =>
    intro pos b p e x h
    rw [searchLoop] at h
    split at h
    next c a heq =>
      have hc : 1 ≤ c := by
        split at heq
        · exact hm _ _ _ heq
        · exact absurd heq (by simp)
      simp at h
      omega
    next heq =>
      have := ih (pos + 1) (ch == '\n') p e x h
      omega

theorem searchFromPos_bounds {α : Type} (m : Str → Option (Nat × α))
    (hm : ∀ s c a, m s = some (c, a) → 1 ≤ c)
    (t : Str) (start p e : Nat) (x : α)
    (h : searchFromPos m t start = some (p, e, x)) : start ≤ p ∧ p < e :=
  searchLoop_bounds m hm _ start _ p e x h

theorem seqLoop_spec (t : Str) :
    ∀ (fuel i pos : Nat),
      (seqLoop t pos i fuel).map Prod.fst =
        List.range' i (seqLoop t pos i fuel).length ∧
      List.Chain' (· < ·) ((seqLoop t pos i fuel).map Prod.snd) ∧
      (∀ q ∈ (seqLoop t pos i fuel).map Prod.snd, pos ≤ q) := by
  intro fuel
  induction fuel with
  | zero => intro i pos; simp [seqLoop]
  | succ f ih =>
    intro i pos
    unfold seqLoop
    cases h : searchFromPos (fun s => (matchSeqArt i s).map (fun c => (c, ()))) t pos with
    | none => simp
    | some r =>
      obtain ⟨s, e, u⟩ := r
      have hm : ∀ (s' : Str) (c : Nat) (a : Unit),
          (matchSeqArt i s').map (fun c => (c, ())) = some (c, a) → 1 ≤ c := by
        intro s' c a hca
        rw [Option.map_eq_some'] at hca
        obtain ⟨k, hk, hk2⟩ := hca
        cases hk2
        exact matchSeqArt_pos i s' c hk
      have hb := searchFromPos_bounds _ hm t pos s e u h
      obtain ⟨hn, hc, hq⟩ := ih (i + 1) e
      refine ⟨?_, ?_, ?_⟩
      · simp only [List.map_cons, List.length_cons, List.range'_succ]
        exact congrArg (i :: ·) hn
      · simp only [List.map_cons]
        rw [List.chain'_cons']
        refine ⟨?_, hc⟩
        intro y hy
        have hy' := hq y (List.mem_of_mem_head? hy)
        omega
      · intro q hq'
        simp only [List.map_cons, List.mem_cons] at hq'
        rcases hq' with hq' | hq'
        · omega
        · have := hq q hq'
          omega

/-- C1: for every input, `find_article_positions_sequential` returns pairs whose
article numbers are exactly `1, …, k` (gap-free, in order) with strictly
increasing offsets; on the text with headers 1, 2 and 4 (3 missing),
`split_articles_and_tail` yields exactly the articles "1" and "2", with the
"Artículo 4" text absorbed into article 2's body and an empty tail. -/
theorem C1_sequential_detection :
    (∀ t : Str,
      (find_article_positions_sequential t).map Prod.fst =
        List.range' 1 (find_article_positions_sequential t).length ∧
      List.Chain' (· < ·) ((find_article_positions_sequential t).map Prod.snd)) ∧
    ((split_articles_and_tail seqGapText).1.map LegalArt.number =
        ["1".toList, "2".toList] ∧
     (split_articles_and_tail seqGapText).1.map LegalArt.text =
        ["Uno.".toList, "Dos.\n\nArtículo 4 Cuatro.".toList] ∧
     (split_articles_and_tail seqGapText).2.2.1 = []) := by
  constructor
  · intro t
    have h := seqLoop_spec t 10000 1 0
    exact ⟨h.1, h.2.1⟩
  · exact ⟨by decide, by decide, by decide⟩

/-- C2 counterexample: on the article "I. a\n\nx\n\nI. b" the fraction label "I"
is re-matched, so the fraction-scoped paragraph index drops back from 2 to 1 for
the fixed pair (article 1, fraction "I"): the indices are not monotone within a
fixed (article_number, fraction_label) pair. -/
theorem C2_counterexample :
    (split_article_into_units fractionArtRepeat).map
        (fun u => (u.fraction_label, u.paragraph_index)) =
      [(some "I".toList, 1), (some "I".toList, 2), (some "I".toList, 1)] ∧
    ¬ List.Pairwise
        (fun a b => a.fraction_label = b.fraction_label →
          a.paragraph_index ≤ b.paragraph_index)
        (split_article_into_units fractionArtRepeat) := by
  exact ⟨by decide, by decide⟩

/-- C6 (amended): on the scenario text the splitter returns exactly two articles
"1" and "2" with texts "Disposición general." and "Otra disposición." (article 2
truncated before the Transitorios heading), and exactly one transitory item whose
label is the entire first item line "PRIMERO.- Entra en vigor." with empty text. -/
theorem C6_transitory_scenario :
    (split_articles_and_transitory transScenario).1 =
      [⟨"1".toList, none, "Disposición general.".toList⟩,
       ⟨"2".toList, none, "Otra disposición.".toList⟩] ∧
    (split_articles_and_transitory transScenario).2.1 =
      [⟨"PRIMERO.- Entra en vigor.".toList, []⟩] ∧
    (split_articles_and_transitory transScenario).2.2.1 = [] ∧
    (split_articles_and_transitory transScenario).2.2.2.1 =
      "Artículos Transitorios".toList ∧
    (split_articles_and_transitory transScenario).2.2.2.2 = none := by
  exact ⟨by decide, by decide, by decide, by decide, by decide⟩

/-- C6 counterexample: the transitory item's label is the whole line
"PRIMERO.- Entra en vigor." — not the marker "PRIMERO.-" (nor any form of it
without the trailing sentence): the continuation text lands in the label, while
the item's text field is empty. -/
theorem C6_counterexample :
    (split_articles_and_transitory transScenario).2.1.map LegalTransient.label =
      ["PRIMERO.- Entra en vigor.".toList] ∧
    (split_articles_and_transitory transScenario).2.1.map LegalTransient.label ≠
      ["PRIMERO.-".toList] ∧
    (split_articles_and_transitory transScenario).2.1.map LegalTransient.label ≠
      ["PRIMERO".toList] := by
  exact ⟨by decide, by decide, by decide⟩

/-- C7: the core pipeline functions are pure: on equal inputs,
`split_articles_and_transitory`, `split_article_into_units` and
`build_chunks_from_units` return equal results (same ids, content and order). -/
theorem C7_determinism :
    ∀ (t₁ t₂ : Str) (a₁ a₂ : LegalArt) (d₁ d₂ : ChunkDoc)
      (us₁ us₂ : List ArticleUnit) (e₁ e₂ : Encoding) (m₁ m₂ o₁ o₂ : Int)
      (s₁ s₂ : SectionTag),
      t₁ = t₂ → a₁ = a₂ → d₁ = d₂ → us₁ = us₂ → e₁ = e₂ → m₁ = m₂ → o₁ = o₂ →
      s₁ = s₂ →
      split_articles_and_transitory t₁ = split_articles_and_transitory t₂ ∧
      split_article_into_units a₁ = split_article_into_units a₂ ∧
      build_chunks_from_units d₁ us₁ e₁ m₁ o₁ s₁ =
        build_chunks_from_units d₂ us₂ e₂ m₂ o₂ s₂ := by
  intro t₁ t₂ a₁ a₂ d₁ d₂ us₁ us₂ e₁ e₂ m₁ m₂ o₁ o₂ s₁ s₂ ht ha hd hu he hm ho hs
  subst ht ha hd hu he hm ho hs
  exact ⟨rfl, rfl, rfl⟩

theorem C7_determinism_witness :
    split_articles_and_transitory transScenario =
      split_articles_and_transitory transScenario ∧
    split_article_into_units fractionArt = split_article_into_units fractionArt ∧
    build_chunks_from_units docW [unitW1, unitW2] charEnc 320 60 .article =
      build_chunks_from_units docW [unitW1, unitW2] charEnc 320 60 .article :=
  C7_determinism transScenario transScenario fractionArt fractionArt docW docW
    [unitW1, unitW2] [unitW1, unitW2] charEnc charEnc 320 320 60 60 .article .article
    rfl rfl rfl rfl rfl rfl rfl rfl

/-- Case analysis of the body-or-chunk rule used when slicing articles. -/
theorem articleTextOf_spec (chunk : Str) :
    (∀ bs, matchInline chunk = some bs →
      (pyStrip (chunk.drop bs) ≠ [] → articleTextOf chunk = pyStrip (chunk.drop bs)) ∧
      (pyStrip (chunk.drop bs) = [] → articleTextOf chunk = chunk)) ∧
    (matchInline chunk = none → articleTextOf chunk = chunk) := by
  constructor
  · intro bs hbs
    constructor
    · intro hne
      simp [articleTextOf, hbs, List.isEmpty_iff, hne]
    · intro he
      simp [articleTextOf, hbs, List.isEmpty_iff, he]
  · intro hn
    simp [articleTextOf, hn]

theorem mkArticle_chunk (trans : Option Nat) (t : Str) (sp : Nat × Nat × Nat) :
    (mkArticle trans t sp).text = articleTextOf (chunkOfSpan trans t sp) := by
  obtain ⟨num, st, en⟩ := sp
  rfl

/-- C9 (amended): `split_articles_and_tail` applies the body-or-chunk rule to
each actual sliced span: the texts of the returned articles are, position by
position, `articleTextOf` of the chunks the loop slices (`articleChunks`), and
on each such chunk the rule keeps exactly the stripped body (header discarded)
when the inline header pattern matches with a non-empty stripped body, keeps
the whole chunk — header included — when the matched body is empty, and keeps
the chunk unchanged when the pattern does not match. -/
theorem C9_header_stripping (t : Str) :
    (split_articles_and_tail t).1.map LegalArt.text =
      (articleChunks t).map articleTextOf ∧
    ∀ chunk ∈ articleChunks t,
      (∀ bs, matchInline chunk = some bs →
        (pyStrip (chunk.drop bs) ≠ [] → articleTextOf chunk = pyStrip (chunk.drop bs)) ∧
        (pyStrip (chunk.drop bs) = [] → articleTextOf chunk = chunk)) ∧
      (matchInline chunk = none → articleTextOf chunk = chunk) := by
  constructor
  · have hpt : ∀ (trans : Option Nat) (sp : Nat × Nat × Nat),
        (mkArticle trans t sp).text = articleTextOf (chunkOfSpan trans t sp) :=
      fun trans sp => mkArticle_chunk trans t sp
    simp only [split_articles_and_tail, articleChunks]
    split <;> split <;>
      first
        | rfl
        | simp [List.map_map, Function.comp, hpt]
  · intro chunk _
    exact articleTextOf_spec chunk

theorem C9_header_stripping_witness :
    ((split_articles_and_tail emptyBodyText).1.map LegalArt.text =
      (articleChunks emptyBodyText).map articleTextOf) ∧
    articleChunks emptyBodyText =
      ["Artículo 1".toList, "Artículo 2 Algo.".toList] ∧
    (articleChunks emptyBodyText).map articleTextOf =
      ["Artículo 1".toList, "Algo.".toList] :=
  ⟨(C9_header_stripping emptyBodyText).1, by decide, by decide⟩

/-- C9 counterexample: on "Artículo 1\n\nArtículo 2 Algo." the first article's
chunk matches the inline header pattern with an empty body, and the stored text
is the full chunk "Artículo 1" — the header is not discarded, contradicting the
claim that the stored text is always exactly the body. -/
theorem C9_counterexample :
    matchInline "Artículo 1".toList = some 10 ∧
    pyStrip (("Artículo 1".toList).drop 10) = [] ∧
    (split_articles_and_tail emptyBodyText).1.map LegalArt.text =
      ["Artículo 1".toList, "Algo.".toList] ∧
    ("Artículo 1".toList : Str) ≠ [] := by
  exact ⟨by decide, by decide, by decide, by decide⟩

theorem alookup_append_last (xs : List (Str × Str)) (k v : Str)
    (h : k ∉ xs.map Prod.fst) : alookup (xs ++ [(k, v)]) k = some v := by
  induction xs with
  | nil => simp [alookup]
  | cons p rest ih =>
    obtain ⟨k', v'⟩ := p
    simp only [List.map_cons, List.mem_cons] at h
    push_neg at h
    simp only [List.cons_append, alookup]
    rw [if_neg (fun he => h.1 he.symm)]
    exact ih h.2

/-- C8: when neither detection strategy finds an article header,
`split_articles_and_tail` returns no articles, the trimmed text as preamble, an
empty tail and `parse_issue = "ocr_pending_no_articles"`; `build_document`
stores the issue in `metadata["parse_issue"]`, refined to
`"ocr_pending_empty_pdf"` exactly when the text strips to empty. -/
theorem C8_no_articles (t : Str) (entry : SourceEntry)
    (h1 : find_article_positions_sequential t = [])
    (h2 : find_article_positions_relaxed t = []) :
    split_articles_and_tail t = ([], pyStrip t, [], some ocrPendingNoArticles) ∧
    alookup (build_document entry t).metadata "parse_issue".toList =
      some (if (pyStrip t).isEmpty then "ocr_pending_empty_pdf".toList
            else ocrPendingNoArticles) := by
  have hsat : split_articles_and_tail t =
      ([], pyStrip t, [], some ocrPendingNoArticles) := by
    simp [split_articles_and_tail, h1, h2]
  refine ⟨hsat, ?_⟩
  have hsplit : split_articles_and_transitory t =
      ([], [], pyStrip t, [], some ocrPendingNoArticles) := by
    simp [split_articles_and_transitory, hsat, split_transitory_region, pyStrip]
  by_cases hE : (pyStrip t).isEmpty
  · have hmd : (build_document entry t).metadata =
        [("original_title".toList, entry.title),
         ("source".toList, entry.source.getD []),
         ("num_articles".toList, natStr 0),
         ("num_transitory".toList, natStr 0)] ++
        [("parse_issue".toList, "ocr_pending_empty_pdf".toList)] := by
      simp [build_document, hsplit, hE, List.isEmpty_iff.1 hE]
    rw [hmd, alookup_append_last _ _ _ ?_, if_pos hE]
    simp only [List.map_cons, List.map_nil]
    decide
  · have hmd : (build_document entry t).metadata =
        ([("original_title".toList, entry.title),
          ("source".toList, entry.source.getD []),
          ("num_articles".toList, natStr 0),
          ("num_transitory".toList, natStr 0)] ++
         [("preamble".toList, pyStrip t)]) ++
        [("parse_issue".toList, ocrPendingNoArticles)] := by
      simp [build_document, hsplit, hE]
    rw [hmd, alookup_append_last _ _ _ ?_, if_neg hE]
    simp only [List.map_append, List.map_cons, List.map_nil]
    decide

theorem C8_no_articles_witness :
    split_articles_and_tail noArtText =
      ([], pyStrip noArtText, [], some ocrPendingNoArticles) ∧
    alookup (build_document entryW noArtText).metadata "parse_issue".toList =
      some (if (pyStrip noArtText).isEmpty then "ocr_pending_empty_pdf".toList
            else ocrPendingNoArticles) :=
  C8_no_articles noArtText entryW (by decide) (by decide)

theorem mem_dropWhile_of_neg (p : Char → Bool) (c : Char) :
    ∀ s : Str, c ∈ s → p c = false → c ∈ s.dropWhile p := by
  intro s
  induction s with
  | nil => simp
  | cons d rest ih =>
    intro hmem hpc
    rw [List.dropWhile_cons]
    split
    · rcases List.mem_cons.1 hmem with he | hm
      · subst he; simp_all
      · exact ih hm hpc
    · exact hmem

theorem pyStrip_ne_nil (s : Str) (c : Char) (hc : c ∈ s) (hns : isSpc c = false) :
    pyStrip s ≠ [] := by
  intro h
  have h1 : c ∈ s.dropWhile isSpc := mem_dropWhile_of_neg _ _ _ hc hns
  have h2 : c ∈ (s.dropWhile isSpc).reverse := List.mem_reverse.2 h1
  have h3 : c ∈ (s.dropWhile isSpc).reverse.dropWhile isSpc :=
    mem_dropWhile_of_neg _ _ _ h2 hns
  have h4 : c ∈ pyStrip s := by
    unfold pyStrip
    exact List.mem_reverse.2 h3
  rw [h] at h4
  exact absurd h4 (List.not_mem_nil c)

theorem chunkTokLoop_mem (enc : Encoding) (tokens : List Nat) (maxT step : Nat)
    (hmax : 1 ≤ maxT) :
    ∀ (fuel start : Nat) (w : Str),
      w ∈ chunkTokLoop enc tokens maxT step start fuel →
      ∃ ts : List Nat, ts ≠ [] ∧ enc.decode ts ≠ [] ∧ w = pyStrip (enc.decode ts) := by
  intro fuel
  induction fuel with
  | zero => intro start w h; simp [chunkTokLoop] at h
  | succ f ih =>
    intro start w h
    simp only [chunkTokLoop] at h
    split at h
    next hlt =>
      have hslice : ((tokens.drop start).take
          (min (start + maxT) tokens.length - start)) ≠ [] := by
        rw [← List.length_pos_iff_ne_nil, List.length_take, List.length_drop]
        omega
      split at h
      · -- last window: h : w ∈ (if decoded.isEmpty then [] else [pyStrip decoded])
        split at h
        · simp at h
        next hdec =>
          simp only [List.mem_singleton] at h
          exact ⟨_, hslice, fun he => hdec (by rw [he]; rfl), h⟩
      · rcases List.mem_append.1 h with h' | h'
        · split at h'
          · simp at h'
          next hdec =>
            simp only [List.mem_singleton] at h'
            exact ⟨_, hslice, fun he => hdec (by rw [he]; rfl), h'⟩
        · exact ih _ _ h'
    next => simp at h

theorem chunk_text_windows (enc : Encoding) (text : Str) (maxT ovT : Int)
    (segs : List Str)
    (h : chunk_text_by_tokens enc text maxT ovT = .ok segs)
    (hdec : ∀ ts : List Nat, ts ≠ [] → ∃ c ∈ enc.decode ts, isSpc c = false) :
    ∀ w ∈ segs, w ≠ [] := by
  intro w hw
  simp only [chunk_text_by_tokens] at h
  split at h
  next he =>
    rw [Except.ok.injEq] at h
    subst h
    simp at hw
  · split at h
    · exact absurd h (by simp)
    · split at h
      · exact absurd h (by simp)
      next hmaxpos hovok =>
        split at h
        · rw [Except.ok.injEq] at h
          subst h
          simp only [List.mem_singleton] at hw
          subst hw
          intro hc
          simp_all [List.isEmpty_iff]
        · rw [Except.ok.injEq] at h
          subst h
          have hmax1 : 1 ≤ maxT.toNat := by omega
          obtain ⟨ts, hts, hdne, hws⟩ := chunkTokLoop_mem enc _ _ _ hmax1 _ _ w hw
          obtain ⟨c, hcm, hcs⟩ := hdec ts hts
          rw [hws]
          exact pyStrip_ne_nil _ c hcm hcs

theorem emitSegs_content (doc : ChunkDoc) (meta : List (Str × Str))
    (sec : SectionTag) (u : ArticleUnit) :
    ∀ (segs : List Str) (idx : Nat) (seen : SeenMap) (ch : LegalChunk),
      ch ∈ (emitSegs doc meta sec u segs idx seen).1 → ch.content ∈ segs := by
  intro segs
  induction segs with
  | nil => intro idx seen ch h; simp [emitSegs] at h
  | cons s rest ih =>
    intro idx seen ch h
    simp only [emitSegs] at h
    rcases List.mem_cons.1 h with he | hm
    · subst he; simp
    · exact List.mem_cons_of_mem _ (ih _ _ ch hm)

theorem buildGo_content (doc : ChunkDoc) (enc : Encoding) (maxT ovT : Int)
    (sec : SectionTag) (meta : List (Str × Str))
    (hdec : ∀ ts : List Nat, ts ≠ [] → ∃ c ∈ enc.decode ts, isSpc c = false) :
    ∀ (units : List ArticleUnit) (seen : SeenMap)
      (res : List LegalChunk × SeenMap),
      buildGo doc enc maxT ovT sec meta units seen = .ok res →
      ∀ ch ∈ res.1, ch.content ≠ [] := by
  intro units
  induction units with
  | nil =>
    intro seen res h ch hch
    simp only [buildGo] at h
    rw [Except.ok.injEq] at h
    subst h
    simp at hch
  | cons u rest ih =>
    intro seen res h ch hch
    simp only [buildGo] at h
    split at h
    next => exact absurd h (by simp)
    next segs hsegs =>
      split at h
      · exact ih _ _ h ch hch
      · split at h
        next => exact absurd h (by simp)
        next cs' hrest =>
          rw [Except.ok.injEq] at h
          subst h
          rcases List.mem_append.1 hch with hm | hm
          · exact chunk_text_windows enc u.text maxT ovT segs hsegs hdec _
              (emitSegs_content doc meta sec u segs 0 seen ch hm)
          · exact ih _ _ hrest ch hm

/-- C10 (amended): a whitespace-only text yields `ok []` before any parameter
validation; for non-whitespace text a ValueError is raised exactly when
`max_tokens ≤ 0`, `overlap_tokens < 0` or `overlap_tokens ≥ max_tokens`;
`build_chunks_from_units` emits no chunk for a whitespace-only unit; and every
emitted chunk has non-empty content provided the encoding never decodes a
non-empty token slice to whitespace-only text (the code strips each decoded
window, so a whitespace-only decode would be stored as empty content). -/
theorem C10_chunker_errors :
    (∀ (enc : Encoding) (text : Str) (maxT ovT : Int),
      pyStrip text = [] → chunk_text_by_tokens enc text maxT ovT = .ok []) ∧
    (∀ (enc : Encoding) (text : Str) (maxT ovT : Int),
      pyStrip text ≠ [] →
      ((∃ e, chunk_text_by_tokens enc text maxT ovT = .error e) ↔
        (maxT ≤ 0 ∨ ovT < 0 ∨ ovT ≥ maxT))) ∧
    (∀ (doc : ChunkDoc) (u : ArticleUnit) (enc : Encoding) (maxT ovT : Int)
       (sec : SectionTag),
      pyStrip u.text = [] →
      build_chunks_from_units doc [u] enc maxT ovT sec = .ok []) ∧
    (∀ (doc : ChunkDoc) (units : List ArticleUnit) (enc : Encoding)
       (maxT ovT : Int) (sec : SectionTag) (cs : List LegalChunk),
      (∀ ts : List Nat, ts ≠ [] → ∃ c ∈ enc.decode ts, isSpc c = false) →
      build_chunks_from_units doc units enc maxT ovT sec = .ok cs →
      ∀ ch ∈ cs, ch.content ≠ []) := by
  refine ⟨?_, ?_, ?_, ?_⟩
  · intro enc text maxT ovT he
    simp [chunk_text_by_tokens, he]
  · intro enc text maxT ovT hne
    have hne' : ¬ (pyStrip text).isEmpty := by simpa [List.isEmpty_iff] using hne
    constructor
    · rintro ⟨e, he⟩
      simp only [chunk_text_by_tokens] at he
      rw [if_neg hne'] at he
      by_cases h1 : maxT ≤ 0
      · exact Or.inl h1
      · rw [if_neg h1] at he
        by_cases h2 : ovT < 0 ∨ ovT ≥ maxT
        · rcases h2 with h2 | h2
          · exact Or.inr (Or.inl h2)
          · exact Or.inr (Or.inr h2)
        · rw [if_neg h2] at he
          split at he <;> simp at he
    · intro hbad
      rw [chunk_text_by_tokens]
      rw [if_neg hne']
      by_cases h1 : maxT ≤ 0
      · rw [if_pos h1]; exact ⟨_, rfl⟩
      · rw [if_neg h1]
        have h2 : ovT < 0 ∨ ovT ≥ maxT := by
          rcases hbad with h | h | h
          · exact absurd h h1
          · exact Or.inl h
          · exact Or.inr h
        rw [if_pos h2]
        exact ⟨_, rfl⟩
  · intro doc u enc maxT ovT sec he
    have hct : chunk_text_by_tokens enc u.text maxT ovT = .ok [] := by
      simp [chunk_text_by_tokens, he]
    simp [build_chunks_from_units, buildGo, hct, Except.map]
  · intro doc units enc maxT ovT sec cs hdec hok ch hch
    simp only [build_chunks_from_units] at hok
    cases hres : buildGo doc enc maxT ovT sec (docMetaOf doc) units [] with
    | error e => rw [hres] at hok; exact absurd hok (by simp [Except.map])
    | ok res =>
      rw [hres] at hok
      simp only [Except.map, Except.ok.injEq] at hok
      subst hok
      exact buildGo_content doc enc maxT ovT sec (docMetaOf doc) hdec units [] res hres ch hch

/-- C10 counterexample: an encoding that decodes every token slice to spaces
makes `build_chunks_from_units` emit chunks whose content is the empty string —
the claim that every emitted LegalChunk has non-empty content fails. -/
theorem C10_counterexample :
    (build_chunks_from_units docW
        [⟨.lead_paragraph, "1".toList, none, 1, "ab".toList⟩]
        spaceEnc 1 0 .article).map (fun cs => cs.map LegalChunk.content) =
      .ok [[], []] := by
  rfl

theorem C10_chunker_errors_witness :
    chunk_text_by_tokens charEnc "   ".toList (-3) (-5) = .ok [] ∧
    ((∃ e, chunk_text_by_tokens charEnc "ab".toList 0 0 = .error e) ↔
      ((0 : Int) ≤ 0 ∨ (0 : Int) < 0 ∨ (0 : Int) ≥ 0)) ∧
    build_chunks_from_units docW
      [⟨.lead_paragraph, "1".toList, none, 1, " \n ".toList⟩]
      charEnc 320 60 .article = .ok [] ∧
    (∀ ch ∈ (build_chunks_from_units docW [unitW1] charEnc 320 60 .article).toOption.getD [],
      ch.content ≠ []) := by
  have hdec : ∀ ts : List Nat, ts ≠ [] → ∃ c ∈ charEnc.decode ts, isSpc c = false := by
    intro ts hne
    obtain ⟨x, hx⟩ := List.exists_mem_of_ne_nil ts hne
    exact ⟨'a', List.mem_map_of_mem _ hx, rfl⟩
  refine ⟨C10_chunker_errors.1 charEnc "   ".toList (-3) (-5) (by decide),
    C10_chunker_errors.2.1 charEnc "ab".toList 0 0 (by decide),
    C10_chunker_errors.2.2.1 docW _ charEnc 320 60 .article (by decide), ?_⟩
  intro ch hch
  exact C10_chunker_errors.2.2.2 docW [unitW1] charEnc 320 60 .article _ hdec rfl ch hch

theorem chunkTokLoop_spec (enc : Encoding) (tokens : List Nat) (maxT ovT : Nat)
    (hov : ovT < maxT)
    (hdecAll : ∀ ts : List Nat, ts ≠ [] → enc.decode ts ≠ []) :
    ∀ (fuel start : Nat),
      start < tokens.length →
      ovT < tokens.length - start →
      tokens.length ≤ start + fuel * (maxT - ovT) →
      chunkTokLoop enc tokens maxT (maxT - ovT) start fuel =
        (List.range (windowCount (tokens.length - start) ovT (maxT - ovT))).map
          (fun i => pyStrip (enc.decode
            ((tokens.drop (start + i * (maxT - ovT))).take maxT))) := by
  intro fuel
  induction fuel with
  | zero => intro start h1 h2 h3; omega
  | succ f ih =>
    intro start h1 h2 h3
    have hstep : 0 < maxT - ovT := by omega
    simp only [chunkTokLoop, if_pos h1]
    have hslice : (tokens.drop start).take (min (start + maxT) tokens.length - start) =
        (tokens.drop start).take maxT := by
      rw [List.take_eq_take]
      simp only [List.length_drop]
      omega
    have hsne : (tokens.drop start).take maxT ≠ [] := by
      rw [← List.length_pos_iff_ne_nil, List.length_take, List.length_drop]
      omega
    have hdne : enc.decode ((tokens.drop start).take maxT) ≠ [] := hdecAll _ hsne
    by_cases hlast : tokens.length ≤ min (start + maxT) tokens.length
    · -- last window: start + maxT ≥ length
      have hlast' : tokens.length ≤ start + maxT := by omega
      rw [if_pos hlast, hslice]
      have hcnt : windowCount (tokens.length - start) ovT (maxT - ovT) = 1 := by
        unfold windowCount
        have hlo : 1 * (maxT - ovT) ≤ tokens.length - start - ovT + (maxT - ovT) - 1 := by
          omega
        have hhi : tokens.length - start - ovT + (maxT - ovT) - 1 <
            (1 + 1) * (maxT - ovT) := by
          omega
        rw [Nat.div_eq_of_lt_le hlo hhi]
      rw [hcnt]
      simp [hdne, List.isEmpty_iff, List.range_succ, List.range_zero]
    · have hmore : start + maxT < tokens.length := by omega
      have h3' : tokens.length ≤ start + (maxT - ovT) + f * (maxT - ovT) := by
        rw [Nat.succ_mul] at h3
        omega
      rw [if_neg hlast, hslice]
      have hrec := ih (start + (maxT - ovT)) (by omega) (by omega) (by omega)
      rw [hrec]
      have hcnt : windowCount (tokens.length - start) ovT (maxT - ovT) =
          windowCount (tokens.length - (start + (maxT - ovT))) ovT (maxT - ovT) + 1 := by
        unfold windowCount
        have he : tokens.length - start - ovT + (maxT - ovT) - 1 =
            (tokens.length - (start + (maxT - ovT)) - ovT + (maxT - ovT) - 1) +
              (maxT - ovT) := by
          omega
        rw [he, Nat.add_div_right _ hstep]
      rw [hcnt, List.range_succ_eq_map]
      rw [if_neg (by simpa [List.isEmpty_iff] using hdne)]
      simp only [List.map_cons, Nat.zero_mul, Nat.add_zero, List.map_map,
        List.singleton_append, List.cons.injEq]
      refine ⟨trivial, ?_⟩
      apply List.map_congr_left
      intro i _
      simp only [Function.comp]
      have harith : start + Nat.succ i * (maxT - ovT) =
          start + (maxT - ovT) + i * (maxT - ovT) := by
        rw [Nat.succ_mul]
        omega
      rw [harith]

/-- C3: for non-empty text with `0 ≤ overlap < max`: if the token count L is at
most `max_tokens` the result is one window, the stripped text itself; otherwise
there are exactly `ceil((L - overlap)/(max - overlap))` windows, window i being
the (stripped) decode of the token slice starting at `i*(max-overlap)` of length
at most `max_tokens`, and adjacent windows' token slices share exactly
`overlap_tokens` token positions.  (Stated under the assumption that the encoder
never decodes a non-empty token slice to the empty string, which holds for real
tokenizers; an empty decode would be skipped by the loop.) -/
theorem C3_token_windows (enc : Encoding) (text : Str) (maxT ovT : Nat)
    (hov : ovT < maxT)
    (hne : pyStrip text ≠ [])
    (hdecAll : ∀ ts : List Nat, ts ≠ [] → enc.decode ts ≠ []) :
    ((enc.encode (pyStrip text)).length ≤ maxT →
      chunk_text_by_tokens enc text (maxT : Int) (ovT : Int) = .ok [pyStrip text]) ∧
    (maxT < (enc.encode (pyStrip text)).length →
      chunk_text_by_tokens enc text (maxT : Int) (ovT : Int) =
        .ok ((List.range (windowCount (enc.encode (pyStrip text)).length ovT (maxT - ovT))).map
          (fun i => pyStrip (enc.decode
            (tokWindow (enc.encode (pyStrip text)) maxT (maxT - ovT) i)))) ∧
      (∀ i, (tokWindow (enc.encode (pyStrip text)) maxT (maxT - ovT) i).length ≤ maxT) ∧
      (∀ i, i + 1 < windowCount (enc.encode (pyStrip text)).length ovT (maxT - ovT) →
        (tokWindow (enc.encode (pyStrip text)) maxT (maxT - ovT) i).drop (maxT - ovT) =
          (tokWindow (enc.encode (pyStrip text)) maxT (maxT - ovT) (i + 1)).take ovT ∧
        ((tokWindow (enc.encode (pyStrip text)) maxT (maxT - ovT) i).drop
            (maxT - ovT)).length = ovT)) := by
  have hne' : ¬ (pyStrip text).isEmpty := by simpa [List.isEmpty_iff] using hne
  have hm0 : ¬ ((maxT : Int) ≤ 0) := by omega
  have hov0 : ¬ ((ovT : Int) < 0 ∨ (ovT : Int) ≥ (maxT : Int)) := by
    push_neg
    constructor
    · omega
    · exact_mod_cast hov
  have htn : ((maxT : Int)).toNat = maxT := Int.toNat_natCast maxT
  have hsn : ((maxT : Int) - (ovT : Int)).toNat = maxT - ovT := by omega
  set tokens := enc.encode (pyStrip text) with htok
  constructor
  · intro hle
    rw [chunk_text_by_tokens, if_neg hne', if_neg hm0, if_neg hov0]
    rw [← htok, htn, if_pos hle]
  · intro hgt
    have hstep : 0 < maxT - ovT := by omega
    refine ⟨?_, ?_, ?_⟩
    · rw [chunk_text_by_tokens, if_neg hne', if_neg hm0, if_neg hov0]
      rw [← htok, htn, if_neg (by omega), hsn]
      show Except.ok (chunkTokLoop enc tokens maxT (maxT - ovT) 0 (tokens.length + 1)) = _
      rw [chunkTokLoop_spec enc tokens maxT ovT hov hdecAll (tokens.length + 1) 0
        (by omega) (by omega) (by
          have : tokens.length + 1 ≤ (tokens.length + 1) * (maxT - ovT) :=
            Nat.le_mul_of_pos_right _ hstep
          omega)]
      simp [tokWindow]
    · intro i
      simp only [tokWindow, List.length_take, List.length_drop]
      omega
    · intro i hi
      have hik : i + 2 ≤ windowCount tokens.length ovT (maxT - ovT) := hi
      unfold windowCount at hik
      rw [Nat.le_div_iff_mul_le hstep] at hik
      have hexp : (i + 2) * (maxT - ovT) = i * (maxT - ovT) + 2 * (maxT - ovT) := by
        ring
      rw [hexp] at hik
      have hLbig : i * (maxT - ovT) + maxT < tokens.length := by omega
      constructor
      · simp only [tokWindow]
        rw [List.drop_take, List.drop_drop, List.take_take]
        have h1 : maxT - (maxT - ovT) = ovT := by omega
        have h2 : i * (maxT - ovT) + (maxT - ovT) = (i + 1) * (maxT - ovT) := by
          rw [Nat.succ_mul]
        have h3 : min ovT maxT = ovT := by omega
        rw [h1, h2, h3]
      · simp only [tokWindow, List.length_drop, List.length_take]
        omega

theorem C3_token_windows_witness :
    chunk_text_by_tokens charEnc thousandText 320 60 =
      .ok ((List.range (windowCount
            (charEnc.encode (pyStrip thousandText)).length 60 (320 - 60))).map
        (fun i => pyStrip (charEnc.decode
          (tokWindow (charEnc.encode (pyStrip thousandText)) 320 (320 - 60) i)))) ∧
    windowCount (charEnc.encode (pyStrip thousandText)).length 60 (320 - 60) = 4 ∧
    (∀ i, (tokWindow (charEnc.encode (pyStrip thousandText)) 320 (320 - 60) i).length
        ≤ 320) := by
  have hdecAll : ∀ ts : List Nat, ts ≠ [] → charEnc.decode ts ≠ [] := by
    intro ts h
    simpa [charEnc] using h
  have h := (C3_token_windows charEnc thousandText 320 60 (by decide) (by decide)
    hdecAll).2 (by decide)
  exact ⟨h.1, by decide, h.2.1⟩

-- --------------------------------------------------------------------------
-- C4: chunk id uniqueness
-- --------------------------------------------------------------------------

theorem digitChar_ne_colon : ∀ d < 10, digitChar d ≠ ':' := by decide

theorem digitVal_digitChar : ∀ d < 10, digitVal (digitChar d) = d := by decide

theorem natStrGo_chars :
    ∀ (f n : Nat) (acc : Str), ':' ∉ acc → ':' ∉ natStrGo f n acc := by
  intro f
  induction f with
  | zero =>
    intro n acc hacc
    simp only [natStrGo, List.mem_cons]
    push_neg
    exact ⟨fun h => digitChar_ne_colon (n % 10) (Nat.mod_lt _ (by norm_num)) h.symm, hacc⟩
  | succ f ih =>
    intro n acc hacc
    simp only [natStrGo]
    split
    next hn =>
      simp only [List.mem_cons]
      push_neg
      exact ⟨fun h => digitChar_ne_colon n hn h.symm, hacc⟩
    next =>
      apply ih
      simp only [List.mem_cons]
      push_neg
      exact ⟨fun h => digitChar_ne_colon (n % 10) (Nat.mod_lt _ (by norm_num)) h.symm, hacc⟩

theorem natStr_no_colon (n : Nat) : ':' ∉ natStr n :=
  natStrGo_chars n n [] (by simp)

theorem natStrGo_append :
    ∀ (f n : Nat) (acc : Str), natStrGo f n acc = natStrGo f n [] ++ acc := by
  intro f
  induction f with
  | zero => intro n acc; simp [natStrGo]
  | succ f ih =>
    intro n acc
    by_cases h : n < 10
    · simp [natStrGo, if_pos h]
    · simp only [natStrGo, if_neg h]
      rw [ih (n / 10) (digitChar (n % 10) :: acc), ih (n / 10) [digitChar (n % 10)]]
      simp

theorem digitsVal_append_digit (s : Str) (c : Char) :
    digitsVal (s ++ [c]) = 10 * digitsVal s + digitVal c := by
  simp [digitsVal, List.foldl_append]

theorem digitsVal_natStrGo : ∀ (f n : Nat), n ≤ f → digitsVal (natStrGo f n []) = n := by
  intro f
  induction f with
  | zero =>
    intro n h
    interval_cases n
    decide
  | succ f ih =>
    intro n h
    by_cases hn : n < 10
    · simp only [natStrGo, if_pos hn]
      have := digitVal_digitChar n hn
      simp [digitsVal, this]
    · simp only [natStrGo, if_neg hn]
      rw [natStrGo_append]
      rw [show (digitChar (n % 10) :: ([] : Str)) = [digitChar (n % 10)] from rfl,
        digitsVal_append_digit]
      have hdiv : n / 10 ≤ f := by
        have := Nat.div_lt_self (by omega : 0 < n) (by norm_num : 1 < 10)
        omega
      rw [ih (n / 10) hdiv]
      have := digitVal_digitChar (n % 10) (Nat.mod_lt _ (by norm_num))
      omega

theorem digitsVal_natStr (n : Nat) : digitsVal (natStr n) = n :=
  digitsVal_natStrGo n n le_rfl

theorem natStr_inj (m n : Nat) (h : natStr m = natStr n) : m = n := by
  rw [← digitsVal_natStr m, ← digitsVal_natStr n, h]

theorem intStr_no_colon (i : Int) : ':' ∉ intStr i := by
  unfold intStr
  split
  · simp only [List.mem_cons]
    push_neg
    exact ⟨by decide, natStr_no_colon _⟩
  · exact natStr_no_colon _

theorem dropWhile_subset_self (p : Char → Bool) :
    ∀ s : Str, ∀ c ∈ s.dropWhile p, c ∈ s := by
  intro s
  induction s with
  | nil => simp
  | cons d rest ih =>
    intro c hc
    rw [List.dropWhile_cons] at hc
    split at hc
    · exact List.mem_cons_of_mem _ (ih c hc)
    · exact hc

theorem mem_stripDashes (s : Str) (c : Char) (h : c ∈ stripDashes s) : c ∈ s := by
  unfold stripDashes at h
  have h1 := List.mem_reverse.1 h
  have h2 := dropWhile_subset_self _ _ _ h1
  have h3 := List.mem_reverse.1 h2
  exact dropWhile_subset_self _ _ _ h3

theorem collapseGo_chars :
    ∀ (s : Str) (b : Bool) (c : Char), c ∈ collapseGo b s → c.isAlphanum ∨ c = '-' := by
  intro s
  induction s with
  | nil => simp [collapseGo]
  | cons d rest ih =>
    intro b c hc
    simp only [collapseGo] at hc
    split at hc
    next hd =>
      rcases List.mem_cons.1 hc with he | hm
      · subst he; exact Or.inl hd
      · exact ih false c hm
    · split at hc
      · exact ih true c hc
      · rcases List.mem_cons.1 hc with he | hm
        · subst he; exact Or.inr rfl
        · exact ih true c hm

theorem safeId_no_colon (v : Str) : ':' ∉ _safe_id_component v := by
  simp only [_safe_id_component]
  split
  · decide
  · intro h
    have h1 := mem_stripDashes _ _ h
    rcases collapseGo_chars _ _ _ h1 with h2 | h2
    · exact absurd h2 (by decide)
    · exact absurd h2 (by decide)

theorem sectionTag_no_colon (sec : SectionTag) : ':' ∉ sec.str := by
  cases sec <;> decide

theorem fracPart_no_colon (fl : Option Str) : ':' ∉ fracPart fl := by
  cases fl with
  | none => decide
  | some f =>
    simp only [fracPart]
    split
    · decide
    · intro h
      rcases List.mem_append.1 h with h1 | h1
      · exact absurd h1 (by decide)
      · exact safeId_no_colon f h1

theorem count_colon_eq_zero (s : Str) (h : ':' ∉ s) : s.count ':' = 0 :=
  List.count_eq_zero.2 h

theorem colonCount_mkBaseId (docId : Str) (sec : SectionTag) (u : ArticleUnit)
    (idx : Nat) :
    colonCount (mkBaseId docId sec u idx) = colonCount docId + 5 := by
  unfold colonCount mkBaseId
  have h1 := count_colon_eq_zero _ (sectionTag_no_colon sec)
  have h2 := count_colon_eq_zero _ (safeId_no_colon u.article_number)
  have h3 := count_colon_eq_zero _ (fracPart_no_colon u.fraction_label)
  have h4 := count_colon_eq_zero _ (intStr_no_colon u.paragraph_index)
  have h5 := count_colon_eq_zero _ (natStr_no_colon idx)
  simp only [List.count_append, List.count_cons, h1, h2, h3, h4, h5]
  norm_num
  rfl

theorem append_colon_inj (a1 : Str) :
    ∀ (a2 t1 t2 : Str), a1 ++ ':' :: t1 = a2 ++ ':' :: t2 →
      ':' ∉ t1 → ':' ∉ t2 → a1 = a2 ∧ t1 = t2 := by
  induction a1 with
  | nil =>
    intro a2 t1 t2 h h1 h2
    cases a2 with
    | nil => simpa using h
    | cons x rest =>
      simp only [List.nil_append, List.cons_append, List.cons.injEq] at h
      exfalso
      apply h1
      rw [h.2]
      simp
  | cons x rest ih =>
    intro a2 t1 t2 h h1 h2
    cases a2 with
    | nil =>
      simp only [List.nil_append, List.cons_append, List.cons.injEq] at h
      exfalso
      apply h2
      rw [← h.2]
      simp [h.1]
    | cons y rest2 =>
      simp only [List.cons_append, List.cons.injEq] at h
      obtain ⟨hA, hT⟩ := ih rest2 t1 t2 h.2 h1 h2
      exact ⟨by rw [h.1, hA], hT⟩

theorem mkChunkId_inj (b1 b2 : Str) (n1 n2 : Nat)
    (hc : colonCount b1 = colonCount b2)
    (h : mkChunkId b1 n1 = mkChunkId b2 n2) : b1 = b2 ∧ n1 = n2 := by
  have hv1 : ':' ∉ 'v' :: natStr n1 := by
    simp only [List.mem_cons]
    push_neg
    exact ⟨by decide, natStr_no_colon _⟩
  have hv2 : ':' ∉ 'v' :: natStr n2 := by
    simp only [List.mem_cons]
    push_neg
    exact ⟨by decide, natStr_no_colon _⟩
  unfold mkChunkId at h
  by_cases e1 : n1 = 0 <;> by_cases e2 : n2 = 0
  · subst e1; subst e2
    rw [if_pos rfl, if_pos rfl] at h
    exact ⟨h, rfl⟩
  · subst e1
    rw [if_pos rfl, if_neg e2] at h
    exfalso
    have hcc : List.count ':' b1 =
        List.count ':' b2 + List.count ':' (':' :: 'v' :: natStr n2) := by
      rw [h, List.count_append]
    have hn0 : List.count ':' (natStr n2) = 0 :=
      count_colon_eq_zero _ (natStr_no_colon _)
    unfold colonCount at hc
    simp [List.count_cons, hn0] at hcc
    omega
  · subst e2
    rw [if_neg e1, if_pos rfl] at h
    exfalso
    have hcc : List.count ':' b1 + List.count ':' (':' :: 'v' :: natStr n1) =
        List.count ':' b2 := by
      rw [← h, List.count_append]
    have hn0 : List.count ':' (natStr n1) = 0 :=
      count_colon_eq_zero _ (natStr_no_colon _)
    unfold colonCount at hc
    simp [List.count_cons, hn0] at hcc
    omega
  · rw [if_neg e1, if_neg e2] at h
    obtain ⟨hb, ht⟩ := append_colon_inj b1 b2 ('v' :: natStr n1) ('v' :: natStr n2) h hv1 hv2
    refine ⟨hb, natStr_inj n1 n2 ?_⟩
    simpa using ht

theorem lookupSeen_bump_self :
    ∀ (seen : SeenMap) (b : Str),
      lookupSeen (bumpSeen seen b) b = lookupSeen seen b + 1 := by
  intro seen
  induction seen with
  | nil => intro b; simp [bumpSeen, lookupSeen]
  | cons p rest ih =>
    intro b
    obtain ⟨k, v⟩ := p
    simp only [bumpSeen]
    split
    next hk =>
      subst hk
      simp [lookupSeen]
    next hk =>
      simp only [lookupSeen, if_neg hk]
      exact ih b

theorem lookupSeen_bump_other :
    ∀ (seen : SeenMap) (b b' : Str), b' ≠ b →
      lookupSeen (bumpSeen seen b) b' = lookupSeen seen b' := by
  intro seen
  induction seen with
  | nil =>
    intro b b' hne
    simp only [bumpSeen, lookupSeen]
    rw [if_neg (fun h => hne h.symm)]
  | cons p rest ih =>
    intro b b' hne
    obtain ⟨k, v⟩ := p
    simp only [bumpSeen]
    split
    next hk =>
      subst hk
      simp only [lookupSeen]
      rw [if_neg (fun h => hne h.symm), if_neg (fun h => hne h.symm)]
    next hk =>
      simp only [lookupSeen]
      split
      · rfl
      · exact ih b b' hne

theorem lookupSeen_bump_mono (seen : SeenMap) (b b' : Str) :
    lookupSeen seen b' ≤ lookupSeen (bumpSeen seen b) b' := by
  by_cases hb : b' = b
  · subst hb
    rw [lookupSeen_bump_self]
    omega
  · rw [lookupSeen_bump_other seen b b' hb]

theorem emitSegs_cons (doc : ChunkDoc) (meta : List (Str × Str)) (sec : SectionTag)
    (u : ArticleUnit) (s : Str) (rest : List Str) (idx : Nat) (seen : SeenMap) :
    emitSegs doc meta sec u (s :: rest) idx seen =
      ((⟨mkChunkId (mkBaseId doc.id sec u idx)
            (lookupSeen seen (mkBaseId doc.id sec u idx)),
         doc.id, u.article_number, u.fraction_label, u.paragraph_index, idx, sec,
         s, meta⟩ : LegalChunk) ::
        (emitSegs doc meta sec u rest (idx + 1)
          (bumpSeen seen (mkBaseId doc.id sec u idx))).1,
       (emitSegs doc meta sec u rest (idx + 1)
          (bumpSeen seen (mkBaseId doc.id sec u idx))).2) := rfl

theorem emitSegs_spec (doc : ChunkDoc) (meta : List (Str × Str)) (sec : SectionTag)
    (u : ArticleUnit) :
    ∀ (segs : List Str) (idx : Nat) (seen : SeenMap),
      ((emitSegs doc meta sec u segs idx seen).1.map LegalChunk.chunk_id).Nodup ∧
      (∀ id ∈ (emitSegs doc meta sec u segs idx seen).1.map LegalChunk.chunk_id,
        ∃ b n, id = mkChunkId b n ∧ colonCount b = colonCount doc.id + 5 ∧
          lookupSeen seen b ≤ n ∧
          n < lookupSeen (emitSegs doc meta sec u segs idx seen).2 b) ∧
      (∀ b', lookupSeen seen b' ≤
        lookupSeen (emitSegs doc meta sec u segs idx seen).2 b') := by
  intro segs
  induction segs with
  | nil =>
    intro idx seen
    refine ⟨by simp [emitSegs], by simp [emitSegs], by simp [emitSegs]⟩
  | cons s rest ih =>
    intro idx seen
    rw [emitSegs_cons]
    dsimp only
    set base := mkBaseId doc.id sec u idx with hbase
    set seen1 := bumpSeen seen base with hseen1
    obtain ⟨ihnd, ihmem, ihmono⟩ := ih (idx + 1) seen1
    have hwfbase : colonCount base = colonCount doc.id + 5 := colonCount_mkBaseId _ _ _ _
    refine ⟨?_, ?_, ?_⟩
    · simp only [List.map_cons]
      rw [List.nodup_cons]
      refine ⟨?_, ihnd⟩
      intro hin
      obtain ⟨b', n', heq, hwf', hlo, _⟩ := ihmem _ hin
      obtain ⟨hb, hn⟩ := mkChunkId_inj base b' (lookupSeen seen base) n'
        (by rw [hwfbase, hwf']) heq
      subst hb
      rw [hseen1, lookupSeen_bump_self] at hlo
      omega
    · simp only [List.map_cons, List.mem_cons]
      rintro id (rfl | hin)
      · refine ⟨base, lookupSeen seen base, rfl, hwfbase, le_rfl, ?_⟩
        have h1 : lookupSeen seen1 base = lookupSeen seen base + 1 :=
          lookupSeen_bump_self seen base
        have h2 := ihmono base
        omega
      · obtain ⟨b', n', heq, hwf', hlo, hhi⟩ := ihmem _ hin
        refine ⟨b', n', heq, hwf', ?_, hhi⟩
        have hmono1 : lookupSeen seen b' ≤ lookupSeen seen1 b' := by
          rw [hseen1]
          exact lookupSeen_bump_mono seen base b'
        omega
    · intro b'
      have h1 : lookupSeen seen b' ≤ lookupSeen seen1 b' := by
        rw [hseen1]
        exact lookupSeen_bump_mono seen base b'
      have h2 := ihmono b'
      omega

theorem buildGo_spec (doc : ChunkDoc) (enc : Encoding) (maxT ovT : Int)
    (sec : SectionTag) (meta : List (Str × Str)) :
    ∀ (units : List ArticleUnit) (seen : SeenMap)
      (res : List LegalChunk × SeenMap),
      buildGo doc enc maxT ovT sec meta units seen = .ok res →
      (res.1.map LegalChunk.chunk_id).Nodup ∧
      (∀ id ∈ res.1.map LegalChunk.chunk_id,
        ∃ b n, id = mkChunkId b n ∧ colonCount b = colonCount doc.id + 5 ∧
          lookupSeen seen b ≤ n ∧ n < lookupSeen res.2 b) ∧
      (∀ b', lookupSeen seen b' ≤ lookupSeen res.2 b') := by
  intro units
  induction units with
  | nil =>
    intro seen res h
    simp only [buildGo, Except.ok.injEq] at h
    subst h
    refine ⟨by simp, by simp, by simp⟩
  | cons u rest ih =>
    intro seen res h
    simp only [buildGo] at h
    split at h
    next => exact absurd h (by simp)
    next segs hsegs =>
      split at h
      · exact ih seen res h
      · split at h
        next => exact absurd h (by simp)
        next pr hrest =>
          rw [Except.ok.injEq] at h
          subst h
          dsimp only
          obtain ⟨end1, emem1, emono1⟩ := emitSegs_spec doc meta sec u segs 0 seen
          obtain ⟨rnd, rmem, rmono⟩ := ih _ _ hrest
          dsimp only at rnd rmem rmono
          refine ⟨?_, ?_, ?_⟩
          · simp only [List.map_append]
            rw [List.nodup_append]
            refine ⟨end1, rnd, ?_⟩
            intro id hin1 hin2
            obtain ⟨b1, n1, he1, hw1, hl1, hh1⟩ := emem1 _ hin1
            obtain ⟨b2, n2, he2, hw2, hl2, hh2⟩ := rmem _ hin2
            obtain ⟨hb, hn⟩ := mkChunkId_inj b1 b2 n1 n2
              (by rw [hw1, hw2]) (by rw [← he1, ← he2])
            subst hb
            subst hn
            omega
          · simp only [List.map_append, List.mem_append]
            rintro id (hin | hin)
            · obtain ⟨b1, n1, he1, hw1, hl1, hh1⟩ := emem1 _ hin
              refine ⟨b1, n1, he1, hw1, hl1, ?_⟩
              have := rmono b1
              omega
            · obtain ⟨b2, n2, he2, hw2, hl2, hh2⟩ := rmem _ hin
              refine ⟨b2, n2, he2, hw2, ?_, hh2⟩
              have := emono1 b2
              omega
          · intro b'
            have h1 := emono1 b'
            have h2 := rmono b'
            omega

/-- C4: the chunk_id values returned by `build_chunks_from_units` are pairwise
distinct for every document, unit sequence, encoding, parameters and section:
the seen-counter suffix `:v{n}` disambiguates colliding base ids, and distinct
(base id, occurrence) pairs always produce distinct id strings. -/
theorem C4_chunk_id_unique (doc : ChunkDoc) (units : List ArticleUnit)
    (enc : Encoding) (maxT ovT : Int) (sec : SectionTag) (cs : List LegalChunk)
    (h : build_chunks_from_units doc units enc maxT ovT sec = .ok cs) :
    (cs.map LegalChunk.chunk_id).Nodup := by
  simp only [build_chunks_from_units] at h
  cases hres : buildGo doc enc maxT ovT sec (docMetaOf doc) units [] with
  | error e =>
    rw [hres] at h
    exact absurd h (by simp [Except.map])
  | ok res =>
    rw [hres] at h
    simp only [Except.map, Except.ok.injEq] at h
    subst h
    exact (buildGo_spec doc enc maxT ovT sec (docMetaOf doc) units [] res hres).1

theorem C4_chunk_id_unique_witness :
    ∃ cs, build_chunks_from_units docW [unitW1, unitW2] charEnc 320 60 .article =
        .ok cs ∧
      (cs.map LegalChunk.chunk_id).Nodup ∧
      cs.map LegalChunk.chunk_id =
        ["d:article:art1:fraclead:p1:c0".toList,
         "d:article:art1:fraclead:p1:c0:v1".toList] :=
  ⟨_, rfl, C4_chunk_id_unique docW [unitW1, unitW2] charEnc 320 60 .article _ rfl,
    by decide⟩

-- --------------------------------------------------------------------------
-- C2: fraction/paragraph unit splitting
-- --------------------------------------------------------------------------

theorem dropWhile_head_not (p : Char → Bool) :
    ∀ (s : Str) (c : Char) (rest : Str), s.dropWhile p = c :: rest → p c = false := by
  intro s
  induction s with
  | nil => simp
  | cons d tail ih =>
    intro c rest h
    rw [List.dropWhile_cons] at h
    split at h
    · exact ih c rest h
    next hd =>
      cases h
      simpa using hd

theorem pyStrip_has_nonspace (s : Str) (h : pyStrip s ≠ []) :
    ∃ c ∈ pyStrip s, isSpc c = false := by
  unfold pyStrip at h ⊢
  cases hb : (s.dropWhile isSpc).reverse.dropWhile isSpc with
  | nil => rw [hb] at h; simp at h
  | cons c rest =>
    refine ⟨c, ?_, dropWhile_head_not isSpc _ c rest hb⟩
    simp

theorem mem_joinSpace (c : Char) :
    ∀ (buf : List Str) (l : Str), l ∈ buf → c ∈ l → c ∈ joinSpace buf := by
  intro buf
  induction buf with
  | nil => simp
  | cons x rest ih =>
    intro l hl hc
    rcases List.mem_cons.1 hl with he | hm
    · subst he
      cases rest with
      | nil => simpa [joinSpace] using hc
      | cons y ys =>
        simp only [joinSpace, List.mem_append]
        exact Or.inl hc
    · cases rest with
      | nil => simp at hm
      | cons y ys =>
        simp only [joinSpace, List.mem_append, List.mem_cons]
        exact Or.inr (Or.inr (ih l hm hc))

theorem flushPara_nil (num : Str) (curFrac : Option Str) (pidx : Int) :
    flushPara num curFrac [] pidx = (none, pidx) := rfl

theorem flushPara_some (num : Str) (curFrac : Option Str) (buf : List Str)
    (pidx : Int) (hb : buf ≠ [])
    (hok : ∀ l ∈ buf, ∃ c ∈ l, isSpc c = false) :
    ∃ u, flushPara num curFrac buf pidx = (some u, pidx + 1) ∧
      u.fraction_label = curFrac ∧ u.paragraph_index = pidx + 1 := by
  unfold flushPara
  rw [if_neg (by simpa [List.isEmpty_iff] using hb)]
  have hne : pyStrip (joinSpace buf) ≠ [] := by
    obtain ⟨l, hl⟩ := List.exists_mem_of_ne_nil buf hb
    obtain ⟨c, hc, hcs⟩ := hok l hl
    exact pyStrip_ne_nil _ c (mem_joinSpace c buf l hl hc) hcs
  rw [if_neg (by simpa [List.isEmpty_iff] using hne)]
  exact ⟨_, rfl, rfl, rfl⟩

theorem normalizeGo_ok :
    ∀ (lines : List Str) (b : Bool) (l : Str),
      l ∈ normalizeGo lines b → l = [] ∨ ∃ c ∈ l, isSpc c = false := by
  intro lines
  induction lines with
  | nil => simp [normalizeGo]
  | cons ln rest ih =>
    intro b l hl
    simp only [normalizeGo] at hl
    split at hl
    · split at hl
      · exact ih _ _ hl
      · rcases List.mem_cons.1 hl with he | hm
        · exact Or.inl he
        · exact ih _ _ hm
    next hne =>
      rcases List.mem_cons.1 hl with he | hm
      · subst he
        exact Or.inr (pyStrip_has_nonspace ln (by simpa [List.isEmpty_iff] using hne))
      · exact ih _ _ hm

theorem unitsLoop_spec (num : Str) :
    ∀ (lines : List Str) (curFrac : Option Str) (buf : List Str) (pidx : Int),
      (∀ l ∈ lines, l = [] ∨ ∃ c ∈ l, isSpc c = false) →
      (∀ l ∈ buf, ∃ c ∈ l, isSpc c = false) →
      0 ≤ pidx →
      List.Chain' unitStep (unitsLoop num lines curFrac buf pidx) ∧
      (∀ u ∈ unitsLoop num lines curFrac buf pidx, 1 ≤ u.paragraph_index) ∧
      (∀ u, (unitsLoop num lines curFrac buf pidx).head? = some u →
        (u.fraction_label = curFrac ∧ u.paragraph_index = pidx + 1) ∨
          u.paragraph_index = 1) := by
  intro lines
  induction lines with
  | nil =>
    intro curFrac buf pidx hlines hok hp
    by_cases hb : buf = []
    · subst hb
      simp [unitsLoop, flushPara_nil]
    · obtain ⟨u, hu, hf, hi⟩ := flushPara_some num curFrac buf pidx hb hok
      simp only [unitsLoop, hu]
      refine ⟨by simp, ?_, ?_⟩
      · intro v hv
        simp only [Option.toList_some, List.mem_singleton] at hv
        subst hv
        omega
      · intro v hv
        simp only [Option.toList_some, List.head?_cons, Option.some_inj] at hv
        subst hv
        exact Or.inl ⟨hf, hi⟩
  | cons ln rest ih =>
    intro curFrac buf pidx hlines hok hp
    have hlines' : ∀ l ∈ rest, l = [] ∨ ∃ c ∈ l, isSpc c = false :=
      fun l hl => hlines l (List.mem_cons_of_mem _ hl)
    simp only [unitsLoop]
    split
    next hblank =>
      -- blank line: flush, then continue with an empty buffer
      by_cases hb : buf = []
      · subst hb
        rw [flushPara_nil]
        simpa using ih curFrac [] pidx hlines' (by simp) hp
      · obtain ⟨u, hu, hf, hi⟩ := flushPara_some num curFrac buf pidx hb hok
        rw [hu]
        obtain ⟨rchain, rmem, rhead⟩ :=
          ih curFrac [] (pidx + 1) hlines' (by simp) (by omega)
        refine ⟨?_, ?_, ?_⟩
        · simp only [Option.toList_some, List.singleton_append]
          rw [List.chain'_cons']
          refine ⟨?_, rchain⟩
          intro v hv
          rcases rhead v hv with ⟨hvf, hvi⟩ | hvi
          · exact Or.inl ⟨by rw [hvf, hf], by rw [hvi, hi]⟩
          · exact Or.inr hvi
        · intro v hv
          simp only [Option.toList_some, List.singleton_append, List.mem_cons] at hv
          rcases hv with rfl | hv
          · omega
          · exact rmem v hv
        · intro v hv
          simp only [Option.toList_some, List.singleton_append, List.head?_cons,
            Option.some_inj] at hv
          subst hv
          exact Or.inl ⟨hf, hi⟩
    next hblank =>
      have hseed : ∀ (k : Nat),
          ∀ l ∈ (if (pyStrip (ln.drop k)).isEmpty then ([] : List Str)
            else [pyStrip (ln.drop k)]), ∃ c ∈ l, isSpc c = false := by
        intro k
        split
        · simp
        next hrem =>
          intro l hl
          simp only [List.mem_singleton] at hl
          subst hl
          exact pyStrip_has_nonspace _ (by simpa [List.isEmpty_iff] using hrem)
      have hlnok : ∃ c ∈ ln, isSpc c = false := by
        rcases hlines ln (List.mem_cons_self _ _) with he | he
        · exact absurd he (by simpa [List.isEmpty_iff] using hblank)
        · exact he
      cases hfm : fracMatch ln with
      | some pr =>
        obtain ⟨rm, e⟩ := pr
        dsimp only
        obtain ⟨rchain, rmem, rhead⟩ :=
          ih (some (rm.map pyUpper)) _ 0 hlines' (hseed e) (by omega)
        by_cases hb : buf = []
        · subst hb
          rw [flushPara_nil]
          refine ⟨by simpa using rchain, by simpa using rmem, ?_⟩
          intro v hv
          simp only [Option.toList_none, List.nil_append] at hv
          rcases rhead v hv with ⟨_, hvi⟩ | hvi
          · exact Or.inr (by omega)
          · exact Or.inr hvi
        · obtain ⟨u, hu, hf, hi⟩ := flushPara_some num curFrac buf pidx hb hok
          rw [hu]
          refine ⟨?_, ?_, ?_⟩
          · simp only [Option.toList_some, List.singleton_append]
            rw [List.chain'_cons']
            refine ⟨?_, rchain⟩
            intro v hv
            rcases rhead v hv with ⟨_, hvi⟩ | hvi
            · exact Or.inr (by omega)
            · exact Or.inr hvi
          · intro v hv
            simp only [Option.toList_some, List.singleton_append, List.mem_cons] at hv
            rcases hv with rfl | hv
            · omega
            · exact rmem v hv
          · intro v hv
            simp only [Option.toList_some, List.singleton_append, List.head?_cons,
              Option.some_inj] at hv
            subst hv
            exact Or.inl ⟨hf, hi⟩
      | none =>
        dsimp only
        refine ih curFrac _ pidx hlines' ?_ hp
        intro l hl
        rcases List.mem_append.1 hl with hm | hm
        · exact hok l hm
        · simp only [List.mem_singleton] at hm
          subst hm
          exact hlnok

/-- C2 (amended): on the scenario article the splitter yields exactly
lead/None/1, fraction/I/1, fraction/I/2, fraction/II/1; in general every unit
has paragraph_index ≥ 1, the first unit has paragraph_index 1, and each
successive unit either keeps the same fraction label with the index advanced by
exactly one, or restarts at index 1 (whenever a fraction marker — including a
repeat of the same label — is crossed). -/
theorem C2_fraction_units :
    ((split_article_into_units fractionArt).map
        (fun u => (u.kind, u.fraction_label, u.paragraph_index, u.text)) =
      [(.lead_paragraph, none, 1, "Lead text.".toList),
       (.fraction_paragraph, some "I".toList, 1, "First.".toList),
       (.fraction_paragraph, some "I".toList, 2, "More on I.".toList),
       (.fraction_paragraph, some "II".toList, 1, "Second.".toList)]) ∧
    (∀ art : LegalArt,
      List.Chain' unitStep (split_article_into_units art) ∧
      (∀ u ∈ split_article_into_units art, 1 ≤ u.paragraph_index) ∧
      (∀ u, (split_article_into_units art).head? = some u →
        u.paragraph_index = 1)) := by
  constructor
  · decide
  · intro art
    have h := unitsLoop_spec art.number (normalize_article_lines art.text) none [] 0
      (fun l hl => normalizeGo_ok (splitLines art.text) false l hl)
      (by simp) le_rfl
    refine ⟨h.1, h.2.1, ?_⟩
    intro u hu
    rcases h.2.2 u hu with ⟨_, h2⟩ | h2
    · omega
    · exact h2

-- --------------------------------------------------------------------------
-- C5: column boundary detection
-- --------------------------------------------------------------------------

theorem bestGapGo_le :
    ∀ (ps : List (ℚ × ℚ)) (best : ℚ) (bnd : Option ℚ),
      best ≤ (bestGapGo ps best bnd).1 ∧
      ∀ p ∈ ps, p.2 - p.1 ≤ (bestGapGo ps best bnd).1 := by
  intro ps
  induction ps with
  | nil => intro best bnd; exact ⟨le_rfl, by simp⟩
  | cons q rest ih =>
    intro best bnd
    obtain ⟨l, r⟩ := q
    simp only [bestGapGo]
    split
    next hgt =>
      obtain ⟨h1, h2⟩ := ih (r - l) (some (l + (r - l) / 2))
      refine ⟨le_trans (le_of_lt hgt) h1, ?_⟩
      intro p hp
      rcases List.mem_cons.1 hp with rfl | hm
      · exact h1
      · exact h2 p hm
    next hle =>
      obtain ⟨h1, h2⟩ := ih best bnd
      refine ⟨h1, ?_⟩
      intro p hp
      rcases List.mem_cons.1 hp with rfl | hm
      · exact le_trans (not_lt.1 hle) h1
      · exact h2 p hm

theorem bestGapGo_witness :
    ∀ (ps : List (ℚ × ℚ)) (best : ℚ) (bnd : Option ℚ) (g b : ℚ),
      bestGapGo ps best bnd = (g, some b) →
      (g = best ∧ bnd = some b) ∨
      ∃ p ∈ ps, p.2 - p.1 = g ∧ b = p.1 + (p.2 - p.1) / 2 := by
  intro ps
  induction ps with
  | nil =>
    intro best bnd g b h
    simp only [bestGapGo, Prod.mk.injEq] at h
    exact Or.inl ⟨h.1.symm, h.2⟩
  | cons q rest ih =>
    intro best bnd g b h
    obtain ⟨l, r⟩ := q
    simp only [bestGapGo] at h
    split at h
    next hgt =>
      rcases ih _ _ g b h with ⟨hg, hbnd⟩ | ⟨p, hp, h1, h2⟩
      · right
        rw [Option.some_inj] at hbnd
        exact ⟨(l, r), List.mem_cons_self _ _, hg.symm, by rw [← hbnd, ← hg]⟩
      · exact Or.inr ⟨p, List.mem_cons_of_mem _ hp, h1, h2⟩
    next hle =>
      rcases ih _ _ g b h with h' | ⟨p, hp, h1, h2⟩
      · exact Or.inl h'
      · exact Or.inr ⟨p, List.mem_cons_of_mem _ hp, h1, h2⟩

/-- C5: the detector returns a boundary only when all acceptance conditions
hold: the boundary is the midpoint of a maximal gap between adjacent distinct
x0 values, the gap is at least max(12% of page width, 40), the fraction of
words whose right edge lies at or left of the boundary is between 1/4 and 3/4,
and the boundary lies strictly between 20% and 80% of the page width;
conversely, whenever the candidate from the gap fold fails any of the three
conditions, the result is None (one column). -/
theorem C5_column_detection :
    (∀ (words : List PWord) (pw b : ℚ),
      _detect_column_boundary words pw = some b →
      ∃ l r, (l, r) ∈ pairsList (sortedDedup (words.map PWord.x0)) ∧
        b = l + (r - l) / 2 ∧
        (∀ p ∈ pairsList (sortedDedup (words.map PWord.x0)), p.2 - p.1 ≤ r - l) ∧
        ratMax (pw * (12 / 100)) 40 ≤ r - l ∧
        (1 / 4 : ℚ) ≤ (countLeft b words : ℚ) / (words.length : ℚ) ∧
        ((countLeft b words : ℚ) / (words.length : ℚ)) ≤ 3 / 4 ∧
        pw * (1 / 5) < b ∧ b < pw * (4 / 5)) ∧
    (∀ (words : List PWord) (pw g b : ℚ),
      bestGapGo (pairsList (sortedDedup (words.map PWord.x0))) 0 none =
        (g, some b) →
      (g < ratMax (pw * (12 / 100)) 40 ∨
       ((countLeft b words : ℚ) / (words.length : ℚ)) < 1 / 4 ∨
       ((countLeft b words : ℚ) / (words.length : ℚ)) > 3 / 4 ∨
       ¬(pw * (1 / 5) < b ∧ b < pw * (4 / 5))) →
      _detect_column_boundary words pw = none) := by
  constructor
  · intro words pw b h
    simp only [_detect_column_boundary] at h
    split at h
    · simp at h
    next hwne =>
      split at h
      · simp at h
      next hxs2 =>
        split at h
        next heq => simp at h
        next g bnd heq =>
          split at h
          · simp at h
          next hgap =>
            split at h
            next htot0 =>
              exfalso
              have hwne' : words ≠ [] := by simpa [List.isEmpty_iff] using hwne
              have := List.length_pos_of_ne_nil hwne'
              omega
            next htot0 =>
              split at h
              · simp at h
              next hratio =>
                split at h
                · simp at h
                next hposok =>
                  rw [Option.some_inj] at h
                  subst h
                  rcases bestGapGo_witness _ _ _ _ _ heq with ⟨_, hbnd⟩ | ⟨p, hp, h1, h2⟩
                  · exact absurd hbnd (by simp)
                  · have hle := bestGapGo_le
                      (pairsList (sortedDedup (words.map PWord.x0))) 0 none
                    rw [heq] at hle
                    dsimp only at hle
                    push_neg at hratio
                    have hpos := not_not.1 hposok
                    refine ⟨p.1, p.2, by simpa using hp, h2, ?_, ?_,
                      hratio.1, hratio.2, hpos.1, hpos.2⟩
                    · intro q hq
                      have := hle.2 q hq
                      rw [h1]
                      exact this
                    · rw [h1]
                      exact not_lt.1 hgap
  · intro words pw g b hbg hfail
    simp only [_detect_column_boundary]
    split
    · rfl
    next hwne =>
      split
      · rfl
      next hxs2 =>
        rw [hbg]
        dsimp only
        have hwne' : words ≠ [] := by
          simpa [List.isEmpty_iff] using hwne
        have htot' : ¬ (words.length = 0) := by
          have := List.length_pos_of_ne_nil hwne'
          omega
        rw [if_neg htot']
        by_cases c1 : g < ratMax (pw * (12 / 100)) 40
        · rw [if_pos c1]
        · rw [if_neg c1]
          by_cases c2 : ((countLeft b words : ℚ) / (words.length : ℚ)) < 1 / 4 ∨
              ((countLeft b words : ℚ) / (words.length : ℚ)) > 3 / 4
          · rw [if_pos c2]
          · rw [if_neg c2]
            by_cases c3 : ¬(pw * (1 / 5) < b ∧ b < pw * (4 / 5))
            · rw [if_pos c3]
            · exfalso
              push_neg at c2
              have hpos := not_not.1 c3
              rcases hfail with hf | hf | hf | hf
              · exact c1 hf
              · exact absurd hf (not_lt.2 c2.1)
              · exact absurd hf (not_lt.2 c2.2)
              · exact hf hpos

theorem C5_column_detection_witness :
    _detect_column_boundary colWords 500 = some 155 ∧
    ∃ l r, (l, r) ∈ pairsList (sortedDedup (colWords.map PWord.x0)) ∧
      (155 : ℚ) = l + (r - l) / 2 ∧
      (∀ p ∈ pairsList (sortedDedup (colWords.map PWord.x0)), p.2 - p.1 ≤ r - l) ∧
      ratMax ((500 : ℚ) * (12 / 100)) 40 ≤ r - l ∧
      (1 / 4 : ℚ) ≤ (countLeft 155 colWords : ℚ) / (colWords.length : ℚ) ∧
      ((countLeft 155 colWords : ℚ) / (colWords.length : ℚ)) ≤ 3 / 4 ∧
      (500 : ℚ) * (1 / 5) < 155 ∧ (155 : ℚ) < 500 * (4 / 5) := by
  have hdet : _detect_column_boundary colWords 500 = some 155 := by
    norm_num [_detect_column_boundary, sortedDedup, insertDistinct, pairsList,
      bestGapGo, ratMax, countLeft, colWords]
  exact ⟨hdet, C5_column_detection.1 colWords 500 155 hdet⟩

theorem C2_fraction_units_witness :
    List.Chain' unitStep (split_article_into_units fractionArt) ∧
    1 ≤ (ArticleUnit.mk .lead_paragraph "1".toList none 1 "Lead text.".toList).paragraph_index ∧
    (∀ u, (split_article_into_units fractionArt).head? = some u →
      u.paragraph_index = 1) :=
  ⟨(C2_fraction_units.2 fractionArt).1,
   (C2_fraction_units.2 fractionArt).2.1 _ (by decide),
   (C2_fraction_units.2 fractionArt).2.2⟩
